import Mathlib

/-!
# Operon core: shallow embedding and verification

Shallow embedding of the operon repository's core subsystems mirrored from the
C++ sources:

* `src/include/operon/operators/recombinator/plus.hpp` (PlusRecombinator)
* `src/include/operon/operators/recombinator/os.hpp` (OffspringSelectionRecombinator)
* `src/include/operon/core/tree.hpp` (SubtreeIterator, Tree)
* `src/src/core/tree.cpp` (UpdateNodes, Sort)
* `src/include/operon/nnls/tiny_cost_function.hpp` (TinyCostFunction)

Machine doubles are modelled by `FVal`: an exact rational payload together
with the three non-finite states (`pinf`, `ninf`, `nan`), with IEEE-754
comparison semantics (every comparison involving `nan` is false).  The
floating-point limits `DBL_MAX` and `DBL_MIN` used by the recombinators are
represented by their exact rational values.
-/

namespace Operon

/-- Model of a C++ `double` value: exact rational for finite values plus the
non-finite states.  Rounding plays no role in the verified code paths (the
recombinators only compare and copy fitness values), so finite doubles are
kept exact. -/
inductive FVal where
  | val (q : ℚ)
  | pinf
  | ninf
  | nan
  deriving DecidableEq, Repr

/-- `std::isfinite`: true exactly on finite values (false on infinities and NaN). -/
def FVal.isFinite : FVal → Bool
  | .val _ => true
  | _ => false

/-- IEEE-754 `operator<` on doubles: any comparison involving NaN is false. -/
def FVal.flt : FVal → FVal → Bool
  | .val a, .val b => a < b
  | .val _, .pinf => true
  | .ninf, .val _ => true
  | .ninf, .pinf => true
  | _, _ => false

/-- `std::max(a, b)` = `(a < b) ? b : a`. -/
def FVal.stdMax (a b : FVal) : FVal := if a.flt b then b else a

/-- `std::min(a, b)` = `(b < a) ? b : a`. -/
def FVal.stdMin (a b : FVal) : FVal := if b.flt a then b else a

/-- `std::numeric_limits<double>::max()` (DBL_MAX), exactly `(2 - 2^-52) * 2^1023`. -/
def dblMax : ℚ := (2 ^ 53 - 1) * 2 ^ 971

/-- `std::numeric_limits<double>::min()` (DBL_MIN), the smallest positive
normalized double, exactly `2^-1022`.  Note that this is a tiny *positive*
number, not the most negative double. -/
def dblMin : ℚ := 1 / 2 ^ 1022

/-- An `Individual`: a genotype plus its cached fitness.  The C++ individual
carries a fitness vector; the recombinators only ever read and write the
single component at `TSelector::SelectableIndex`, which is the component
modelled here. -/
structure Individual (α : Type) where
  Genotype : α
  Fitness : FVal
  deriving DecidableEq, Repr

namespace PlusRecombinator

/-- The candidate genotype built by `PlusRecombinator::operator()` (plus.hpp,
lines 55-63): crossover of the two parents when `doCrossover`, then mutation
of that result (or of the first parent directly) when `doMutation`. -/
def candidateGenotype {α : Type} (doCrossover doMutation : Bool)
    (crossover : α → α → α) (mutate : α → α) (g1 g2 : α) : α :=
  if doCrossover then
    (if doMutation then mutate (crossover g1 g2) else crossover g1 g2)
  else
    mutate g1

/-- The fitness clamp of `PlusRecombinator::operator()` (plus.hpp, line 66):
`std::isfinite(f) ? f : (Max ? std::numeric_limits<double>::min()
                             : std::numeric_limits<double>::max())`. -/
def clampFitness (maxO : Bool) (f : FVal) : FVal :=
  if f.isFinite then f else (if maxO then .val dblMin else .val dblMax)

/-- `PlusRecombinator::operator()` (plus.hpp, lines 36-85).  The two uniform
draws are `u1`, `u2`; `parent1`, `parent2` are `population[first]` and
`population[second]` as returned by the selector; `crossover`, `mutate` and
`evalF` are the collaborator operators (their RNG argument is absorbed into
the function values); `maxO` is `TSelector::Maximization`. -/
def call {α : Type} (maxO : Bool) (u1 u2 pCrossover pMutation : ℚ)
    (parent1 parent2 : Individual α)
    (crossover : α → α → α) (mutate : α → α) (evalF : α → FVal) :
    Option (Individual α) :=
  let doCrossover := u1 < pCrossover
  let doMutation := u2 < pMutation
  if ¬(doCrossover ∨ doMutation) then none
  else
    let g := candidateGenotype (decide doCrossover) (decide doMutation)
      crossover mutate parent1.Genotype parent2.Genotype
    let f := evalF g
    let child : Individual α := ⟨g, clampFitness maxO f⟩
    if doCrossover then
      -- two parents
      if maxO ∧ child.Fitness.flt (parent1.Fitness.stdMax parent2.Fitness) then
        some (if parent2.Fitness.flt parent1.Fitness then parent1 else parent2)
      else if ¬maxO ∧ (parent1.Fitness.stdMin parent2.Fitness).flt child.Fitness then
        some (if parent1.Fitness.flt parent2.Fitness then parent1 else parent2)
      else
        some child
    else
      -- one parent
      if maxO ∧ child.Fitness.flt parent1.Fitness then
        some parent1
      else if ¬maxO ∧ parent1.Fitness.flt child.Fitness then
        some parent1
      else
        some child

end PlusRecombinator

namespace OffspringSelectionRecombinator

/-- The candidate genotype built by `OffspringSelectionRecombinator::operator()`
(os.hpp, lines 54-69): identical build steps to the Plus variant. -/
def candidateGenotype {α : Type} (doCrossover doMutation : Bool)
    (crossover : α → α → α) (mutate : α → α) (g1 g2 : α) : α :=
  if doCrossover then
    (if doMutation then mutate (crossover g1 g2) else crossover g1 g2)
  else
    mutate g1

/-- `OffspringSelectionRecombinator::operator()` (os.hpp, lines 36-79).
`fit` starts as the first parent's fitness and, in the crossover case, becomes
`std::max`/`std::min` of the two parents' fitness values; the candidate is
accepted only when its fitness is finite and strictly better than `fit`
(`comp` is `std::less` under maximization and `std::greater` otherwise). -/
def call {α : Type} (maxO : Bool) (u1 u2 pCrossover pMutation : ℚ)
    (parent1 parent2 : Individual α)
    (crossover : α → α → α) (mutate : α → α) (evalF : α → FVal) :
    Option (Individual α) :=
  let doCrossover := u1 < pCrossover
  let doMutation := u2 < pMutation
  if ¬(doCrossover ∨ doMutation) then none
  else
    let fit :=
      if doCrossover then
        (if maxO then parent1.Fitness.stdMax parent2.Fitness
         else parent1.Fitness.stdMin parent2.Fitness)
      else parent1.Fitness
    let g := candidateGenotype (decide doCrossover) (decide doMutation)
      crossover mutate parent1.Genotype parent2.Genotype
    let f := evalF g
    if f.isFinite ∧ (if maxO then fit.flt f else f.flt fit) then
      some ⟨g, f⟩
    else
      none

/-- The mutable counters of `OffspringSelectionRecombinator` (os.hpp, lines
103-105): the evaluation baseline recorded by `Prepare` and the
selection-pressure bound (both `size_t`). -/
structure State where
  lastEvaluations : ℕ
  maxSelectionPressure : ℕ
  deriving DecidableEq, Repr

/-- `OffspringSelectionRecombinator::Prepare` (os.hpp, lines 84-88), restricted
to its effect on the recombinator's own state: records the evaluator's current
cumulative evaluation count as the baseline. -/
def Prepare (fitnessEvaluations : ℕ) (s : State) : State :=
  { s with lastEvaluations := fitnessEvaluations }

/-- `OffspringSelectionRecombinator::SelectionPressure` (os.hpp, lines 90-96):
`0` for an empty population view, otherwise
`(FitnessEvaluations() - lastEvaluations) / population.size()` (the `size_t`
difference of a monotone counter, then a `double` division). -/
def SelectionPressure (popSize fitnessEvaluations : ℕ) (s : State) : ℚ :=
  if popSize = 0 then 0
  else ((fitnessEvaluations - s.lastEvaluations : ℕ) : ℚ) / (popSize : ℚ)

/-- `OffspringSelectionRecombinator::Terminate` (os.hpp, lines 98-101): the
base class's termination signal OR `SelectionPressure() > maxSelectionPressure`.
`RecombinatorBase::Terminate` lives in `core/operator.hpp` (not part of the
sources); its verdict is abstracted as the Boolean `baseTerminate`. -/
def Terminate (baseTerminate : Bool) (popSize fitnessEvaluations : ℕ)
    (s : State) : Bool :=
  baseTerminate || decide
    (SelectionPressure popSize fitnessEvaluations s > (s.maxSelectionPressure : ℚ))

end OffspringSelectionRecombinator

/-- A tree node.  `Node` itself lives in `core/node.hpp`, which is not among
the sources; its fields are modelled from the spec: `Arity` (declared child
count, 0 for terminals), `Length` (descendant count excluding self), `Depth`,
`Parent`, `IsEnabled`, `HashValue` (identity hash fixed at construction),
`CalculatedHashValue` (bottom-up aggregated content hash) and `Value`
(numeric payload).  The node-kind predicates `IsCommutative`, `IsConstant`
and `IsVariable` come from the spec's closed per-kind metadata table and are
modelled as fields.  Hash values are modelled as naturals. -/
structure Nd where
  Arity : ℕ
  Length : ℕ
  Depth : ℕ
  Parent : ℕ
  IsEnabled : Bool
  HashValue : ℕ
  CalculatedHashValue : ℕ
  Value : ℚ
  IsCommutative : Bool
  IsConstant : Bool
  IsVariable : Bool
  deriving DecidableEq, Repr

instance : Inhabited Nd := ⟨⟨0, 0, 0, 0, true, 0, 0, 0, false, false, false⟩⟩

/-- Modelled from the spec: `Node::IsLeaf()` (node.hpp is not among the
sources) — a node is a terminal exactly when its declared arity is zero. -/
def Nd.IsLeaf (n : Nd) : Bool := n.Arity = 0

/-- The node stored at index `i` of the flat postfix array (`nodes_[i]`). -/
def ndAt (ns : List Nd) (i : ℕ) : Nd := ns.getD i default

namespace SubtreeIterator

/-- `SubtreeIterator::HasNext` (tree.hpp, line 73):
`index_ < parentIndex_ && index_ >= parentIndex_ - nodes_[parentIndex_].Length`.
The C++ indices are `size_t`; subtraction that would underflow wraps to a huge
value and makes the corresponding comparison false.  The model uses `ℤ` for
the cursor with explicit nonnegativity guards reproducing exactly that
behavior: a wrapped (negative) cursor fails `index_ < parentIndex_`, and a
wrapped `parentIndex_ - Length` fails `index_ >= parentIndex_ - Length`. -/
def hasNext (ns : List Nd) (parent : ℕ) (idx : ℤ) : Prop :=
  0 ≤ idx ∧ idx < (parent : ℤ) ∧
    (ndAt ns parent).Length ≤ parent ∧
    (parent : ℤ) - (ndAt ns parent).Length ≤ idx

instance (ns : List Nd) (parent : ℕ) (idx : ℤ) :
    Decidable (hasNext ns parent idx) := by
  unfold hasNext; infer_instance

/-- Driving a `SubtreeIterator` to exhaustion: the list of child indices
visited from cursor position `idx` until `HasNext()` becomes false, each
advance being `index_ -= nodes_[index_].Length + 1` (tree.hpp, line 45). -/
def collectChildren (ns : List Nd) (parent : ℕ) (idx : ℤ) : List ℤ :=
  if h : hasNext ns parent idx then
    idx :: collectChildren ns parent (idx - ((ndAt ns idx.toNat).Length + 1))
  else
    []
  termination_by (idx + 1).toNat
  decreasing_by
    obtain ⟨h0, -, -, -⟩ := h
    omega

theorem collectChildren_pos (ns : List Nd) (parent : ℕ) (idx : ℤ)
    (h : hasNext ns parent idx) :
    collectChildren ns parent idx =
      idx :: collectChildren ns parent (idx - ((ndAt ns idx.toNat).Length + 1)) := by
  rw [collectChildren]; simp [h]

theorem collectChildren_neg (ns : List Nd) (parent : ℕ) (idx : ℤ)
    (h : ¬ hasNext ns parent idx) :
    collectChildren ns parent idx = [] := by
  rw [collectChildren]; simp [h]

end SubtreeIterator

/-- The sequence of `k` consecutive child positions starting at cursor `idx`,
each step advancing by `Length + 1` exactly as the subtree iterator does.
This is the counted (rather than `HasNext`-driven) view of the traversal,
used to state the subtree-range invariant. -/
def childSeq (ns : List Nd) : ℕ → ℤ → List ℤ
  | 0, _ => []
  | k + 1, idx => idx :: childSeq ns k (idx - ((ndAt ns idx.toNat).Length + 1))

/-- The subtree-range invariant at index `i`, as established by
`Tree::UpdateNodes` (tree.cpp, lines 36-57): the subtree occupies the
in-bounds range `[i - Length(i), i]` and `Length(i)` equals `Arity(i)` plus
the lengths of the `Arity(i)` children reached by the iterator's stride. -/
def SubtreeInvAt (ns : List Nd) (i : ℕ) : Prop :=
  (ndAt ns i).Length ≤ i ∧
  (ndAt ns i).Length = (ndAt ns i).Arity +
    ((childSeq ns (ndAt ns i).Arity ((i : ℤ) - 1)).map
      (fun c => (ndAt ns c.toNat).Length)).sum

instance (ns : List Nd) (i : ℕ) : Decidable (SubtreeInvAt ns i) := by
  unfold SubtreeInvAt; infer_instance

namespace Tree

/-- The child loop of `Tree::UpdateNodes` (tree.cpp, lines 47-53): starting
from the accumulated length `len` (initially `s.Arity`) and depth `depth`
(initially 1), it accumulates each child's `Length` into `len`, maxes the
child's `Depth` into `depth`, writes `Parent := i` into the child, and
advances the cursor; the iterator's `HasNext` re-reads the *evolving*
accumulated length, which the guard reproduces. -/
def updChildLoop (ns : List Nd) (i : ℕ) (len depth : ℕ) (idx : ℤ) :
    List Nd × ℕ × ℕ :=
  if h : 0 ≤ idx ∧ idx < (i : ℤ) ∧ len ≤ i ∧ (i : ℤ) - len ≤ idx then
    let c := ndAt ns idx.toNat
    updChildLoop (ns.set idx.toNat { c with Parent := i }) i
      (len + c.Length) (max depth c.Depth) (idx - (c.Length + 1))
  else
    (ns, len, depth)
  termination_by (idx + 1).toNat
  decreasing_by
    obtain ⟨h0, -, -, -⟩ := h
    omega

/-- One iteration of the `Tree::UpdateNodes` loop body at index `i` (tree.cpp,
lines 38-55): `s.Depth = 1; s.Length = s.Arity;` then for a leaf
`s.Arity = s.Length = 0`, otherwise the child loop followed by `++s.Depth`. -/
def updateAt (ns : List Nd) (i : ℕ) : List Nd :=
  let s := ndAt ns i
  if s.IsLeaf then
    ns.set i { s with Arity := 0, Length := 0, Depth := 1 }
  else
    let ns0 := ns.set i { s with Length := s.Arity, Depth := 1 }
    let r := updChildLoop ns0 i s.Arity 1 ((i : ℤ) - 1)
    r.1.set i { ndAt r.1 i with Length := r.2.1, Depth := r.2.2 + 1 }

/-- `Tree::UpdateNodes` (tree.cpp, lines 36-57): the ascending pass over all
node indices. -/
def UpdateNodes (ns : List Nd) : List Nd :=
  (List.range ns.length).foldl updateAt ns

/-- `Tree::Subtree` (tree.hpp, lines 177-183): copies `n.Length` nodes
starting at offset `i - n.Length` (`std::copy_n(nodes_.begin() + i - n.Length,
n.Length, ...)`) into a fresh tree and renormalizes it with `UpdateNodes`. -/
def Subtree (ns : List Nd) (i : ℕ) : List Nd :=
  let n := ndAt ns i
  UpdateNodes ((ns.drop (i - n.Length)).take n.Length)

end Tree

theorem FVal.flt_val_val (a b : ℚ) : (FVal.val a).flt (.val b) = decide (a < b) := rfl

theorem FVal.stdMax_val (a b : ℚ) :
    (FVal.val a).stdMax (.val b) = .val (max a b) := by
  unfold FVal.stdMax
  rcases le_or_lt b a with h | h
  · simp [FVal.flt, not_lt.mpr h, max_eq_left h]
  · simp [FVal.flt, h, max_eq_right h.le]

theorem FVal.stdMin_val (a b : ℚ) :
    (FVal.val a).stdMin (.val b) = .val (min a b) := by
  unfold FVal.stdMin
  rcases le_or_lt a b with h | h
  · simp [FVal.flt, not_lt.mpr h, min_eq_left h]
  · simp [FVal.flt, h, min_eq_right h.le]

/-- The fitness clamp always produces a finite value. -/
theorem PlusRecombinator.clampFitness_finite (maxO : Bool) (f : FVal) :
    ∃ q : ℚ, PlusRecombinator.clampFitness maxO f = .val q := by
  unfold PlusRecombinator.clampFitness
  cases f <;> cases maxO <;> exact ⟨_, rfl⟩

/-- The best contributing parent's fitness, following the spec's survivor
rule: the single selected parent's fitness in the mutation-only case, the
better of the two selected parents' fitness values in the crossover case. -/
def plusBestFitness (doC maxO : Bool) (a b : ℚ) : ℚ :=
  if doC then (if maxO then max a b else min a b) else a

/-- The best contributing parent, following the spec's survivor rule (when
the two parents' fitness values tie, both are best; the second selected
parent is the canonical representative). -/
def plusBestParent {α : Type} (doC maxO : Bool) (a b : ℚ)
    (p1 p2 : Individual α) : Individual α :=
  if doC then
    (if maxO then (if b < a then p1 else p2) else (if a < b then p1 else p2))
  else p1

/-- C2: in every Plus-recombinator trial where crossover or mutation triggers,
the returned individual is the candidate when its clamped fitness is at least
as good (in the active optimization direction) as the best contributing
parent's fitness, and is otherwise the best contributing parent unchanged;
consequently the returned fitness is never worse than the best contributing
parent's. -/
theorem plus_survivor_rule_elitist {α : Type} (maxO : Bool) (u1 u2 pC pM a b : ℚ)
    (g1 g2 : α) (crossover : α → α → α) (mutate : α → α) (evalF : α → FVal) (cq : ℚ)
    (htrig : u1 < pC ∨ u2 < pM)
    (hcq : PlusRecombinator.clampFitness maxO
        (evalF (PlusRecombinator.candidateGenotype (decide (u1 < pC)) (decide (u2 < pM))
          crossover mutate g1 g2)) = .val cq) :
    PlusRecombinator.call maxO u1 u2 pC pM ⟨g1, .val a⟩ ⟨g2, .val b⟩ crossover mutate evalF
      = some (
        if (if maxO then plusBestFitness (decide (u1 < pC)) maxO a b ≤ cq
            else cq ≤ plusBestFitness (decide (u1 < pC)) maxO a b) then
          ⟨PlusRecombinator.candidateGenotype (decide (u1 < pC)) (decide (u2 < pM))
             crossover mutate g1 g2, .val cq⟩
        else plusBestParent (decide (u1 < pC)) maxO a b ⟨g1, .val a⟩ ⟨g2, .val b⟩) ∧
    (∀ r, PlusRecombinator.call maxO u1 u2 pC pM ⟨g1, .val a⟩ ⟨g2, .val b⟩ crossover mutate evalF
        = some r →
      (if maxO then r.Fitness.flt (.val (plusBestFitness (decide (u1 < pC)) maxO a b))
       else (FVal.val (plusBestFitness (decide (u1 < pC)) maxO a b)).flt r.Fitness) = false) := by
  have hmain : PlusRecombinator.call maxO u1 u2 pC pM ⟨g1, .val a⟩ ⟨g2, .val b⟩
      crossover mutate evalF
      = some (
        if (if maxO then plusBestFitness (decide (u1 < pC)) maxO a b ≤ cq
            else cq ≤ plusBestFitness (decide (u1 < pC)) maxO a b) then
          ⟨PlusRecombinator.candidateGenotype (decide (u1 < pC)) (decide (u2 < pM))
             crossover mutate g1 g2, .val cq⟩
        else plusBestParent (decide (u1 < pC)) maxO a b ⟨g1, .val a⟩ ⟨g2, .val b⟩) := by
    simp only [PlusRecombinator.call]
    rw [if_neg (not_not_intro htrig)]
    by_cases hc : u1 < pC
    · rw [decide_eq_true hc] at hcq
      simp only [decide_eq_true hc]
      rw [if_pos hc, hcq]
      cases maxO with
      | true =>
        simp only [FVal.stdMax_val, FVal.flt_val_val, plusBestFitness, plusBestParent]
        rcases le_or_lt (max a b) cq with hle | hlt
        · simp [not_lt.mpr hle, hle]
        · simp [hlt, not_le.mpr hlt, FVal.flt_val_val]
      | false =>
        simp only [FVal.stdMin_val, FVal.flt_val_val, plusBestFitness, plusBestParent]
        rcases le_or_lt cq (min a b) with hle | hlt
        · simp [not_lt.mpr hle, hle]
        · simp [hlt, not_le.mpr hlt, FVal.flt_val_val]
    · rw [decide_eq_false hc] at hcq
      simp only [decide_eq_false hc]
      rw [if_neg hc, hcq]
      cases maxO with
      | true =>
        simp only [FVal.flt_val_val, plusBestFitness, plusBestParent]
        rcases le_or_lt a cq with hle | hlt
        · simp [not_lt.mpr hle, hle]
        · simp [hlt, not_le.mpr hlt]
      | false =>
        simp only [FVal.flt_val_val, plusBestFitness, plusBestParent]
        rcases le_or_lt cq a with hle | hlt
        · simp [not_lt.mpr hle, hle]
        · simp [hlt, not_le.mpr hlt]
  refine ⟨hmain, ?_⟩
  intro r hr
  rw [hmain] at hr
  injection hr with hr'
  subst hr'
  cases maxO with
  | true =>
    simp only [if_true]
    by_cases hgood : plusBestFitness (decide (u1 < pC)) true a b ≤ cq
    · simp [hgood, FVal.flt_val_val, not_lt.mpr hgood]
    · rw [if_neg hgood]
      by_cases hc : u1 < pC
      · simp only [decide_eq_true hc, plusBestFitness, plusBestParent, if_true]
        rcases lt_or_le b a with h | h
        · simp [h, FVal.flt_val_val, max_eq_left h.le]
        · simp [not_lt.mpr h, FVal.flt_val_val, max_eq_right h]
      · simp [decide_eq_false hc, plusBestFitness, plusBestParent, FVal.flt_val_val]
  | false =>
    simp only [Bool.false_eq_true, if_false]
    by_cases hgood : cq ≤ plusBestFitness (decide (u1 < pC)) false a b
    · simp [hgood, FVal.flt_val_val, not_lt.mpr hgood]
    · rw [if_neg hgood]
      by_cases hc : u1 < pC
      · simp only [decide_eq_true hc, plusBestFitness, plusBestParent, if_true]
        rcases lt_or_le a b with h | h
        · simp [h, FVal.flt_val_val, min_eq_left h.le]
        · simp [not_lt.mpr h, FVal.flt_val_val, min_eq_right h]
      · simp [decide_eq_false hc, plusBestFitness, plusBestParent, FVal.flt_val_val]

theorem dblMin_pos : (0 : ℚ) < dblMin := by unfold dblMin; positivity

/-- C1 (failing input): under maximization, a population of finite-fitness
individuals (parent fitness -1.0) and a candidate whose evaluation is NaN, the
Plus recombinator returns the candidate itself — its NaN fitness was clamped
to `numeric_limits<double>::min() = 2^-1022`, which compares *better* than the
finite parent fitness -1.0 — instead of a contributing parent. -/
theorem plus_returns_nonfinite_candidate :
    PlusRecombinator.call (α := ℕ) true 1 0 0 1 ⟨0, .val (-1)⟩ ⟨0, .val (-1)⟩
      (fun x _ => x) (fun x => x + 1) (fun _ => .nan)
      = some ⟨1, .val dblMin⟩ ∧
    (⟨1, .val dblMin⟩ : Individual ℕ) ≠ ⟨0, .val (-1)⟩ := by
  have h1 : ¬ ((1 : ℚ) < 0) := by norm_num
  have h2 : (0 : ℚ) < 1 := by norm_num
  have h3 : ¬ (dblMin < (-1 : ℚ)) :=
    not_lt.mpr (le_of_lt (lt_trans (by norm_num) dblMin_pos))
  constructor
  · simp only [PlusRecombinator.call]
    rw [if_neg (not_not_intro (Or.inr h2))]
    rw [if_neg h1]
    simp [PlusRecombinator.candidateGenotype, PlusRecombinator.clampFitness,
      FVal.isFinite, FVal.flt_val_val, decide_eq_false h1, decide_eq_true h2, h3]
  · simp

/-- C6 (failing input): the sentinel value the Plus recombinator substitutes
for a non-finite fitness under maximization is `DBL_MIN = 2^-1022`, which is
strictly better (greater) than the representable fitness -1.0 — not a value
"no better than any representable fitness". -/
theorem plus_clamp_sentinel_not_worst :
    PlusRecombinator.clampFitness true .nan = .val dblMin ∧
    (FVal.val (-1)).flt (.val dblMin) = true := by
  refine ⟨rfl, ?_⟩
  rw [FVal.flt_val_val, decide_eq_true_eq]
  exact lt_trans (by norm_num) dblMin_pos

/-- The best contributing parent's fitness for the OffspringSelection
acceptance rule: the single selected parent's fitness in the mutation-only
case, the better of the two selected parents' fitness values in the
crossover case. -/
def osBestFitness (doC maxO : Bool) (a b : ℚ) : ℚ :=
  if doC then (if maxO then max a b else min a b) else a

/-- C3: an OffspringSelection trial returns an offspring iff crossover or
mutation triggered and the candidate's evaluated fitness is finite and
strictly better, in the active optimization direction, than the best
contributing parent's fitness; the returned offspring is the candidate with
its raw evaluated fitness; in every other case no offspring is returned. -/
theorem os_offspring_accept_iff {α : Type} (maxO : Bool) (u1 u2 pC pM a b : ℚ)
    (g1 g2 : α) (crossover : α → α → α) (mutate : α → α) (evalF : α → FVal)
    (r : Individual α) :
    (OffspringSelectionRecombinator.call maxO u1 u2 pC pM ⟨g1, .val a⟩ ⟨g2, .val b⟩
        crossover mutate evalF = some r)
      ↔ ((u1 < pC ∨ u2 < pM) ∧
         (∃ q : ℚ,
            evalF (OffspringSelectionRecombinator.candidateGenotype (decide (u1 < pC))
              (decide (u2 < pM)) crossover mutate g1 g2) = .val q ∧
            (if maxO then osBestFitness (decide (u1 < pC)) maxO a b < q
             else q < osBestFitness (decide (u1 < pC)) maxO a b) ∧
            r = ⟨OffspringSelectionRecombinator.candidateGenotype (decide (u1 < pC))
                  (decide (u2 < pM)) crossover mutate g1 g2, .val q⟩)) := by
  simp only [OffspringSelectionRecombinator.call]
  by_cases htrig : u1 < pC ∨ u2 < pM
  · rw [if_neg (not_not_intro htrig)]
    simp only [htrig, true_and]
    by_cases hc : u1 < pC
    · simp only [decide_eq_true hc, if_pos hc]
      cases maxO with
      | true =>
        rcases hf : evalF (OffspringSelectionRecombinator.candidateGenotype true
            (decide (u2 < pM)) crossover mutate g1 g2) with q | _ | _ | _
        · by_cases hcomp : max a b < q
          · simp [FVal.isFinite, FVal.stdMax_val, FVal.flt_val_val,
              osBestFitness, hcomp, eq_comm]
            exact fun _ => sup_lt_iff.mp hcomp
          · simp [FVal.isFinite, FVal.stdMax_val, FVal.flt_val_val,
              osBestFitness, hcomp]
            exact fun ha hb _ => hcomp (sup_lt_iff.mpr ⟨ha, hb⟩)
        all_goals simp [FVal.isFinite]
      | false =>
        rcases hf : evalF (OffspringSelectionRecombinator.candidateGenotype true
            (decide (u2 < pM)) crossover mutate g1 g2) with q | _ | _ | _
        · by_cases hcomp : q < min a b
          · simp [FVal.isFinite, FVal.stdMin_val, FVal.flt_val_val,
              osBestFitness, hcomp, eq_comm]
            exact fun _ => lt_inf_iff.mp hcomp
          · simp [FVal.isFinite, FVal.stdMin_val, FVal.flt_val_val,
              osBestFitness, hcomp]
            exact fun ha hb _ => hcomp (lt_inf_iff.mpr ⟨ha, hb⟩)
        all_goals simp [FVal.isFinite]
    · simp only [decide_eq_false hc, if_neg hc]
      cases maxO with
      | true =>
        rcases hf : evalF (OffspringSelectionRecombinator.candidateGenotype false
            (decide (u2 < pM)) crossover mutate g1 g2) with q | _ | _ | _
        · by_cases hcomp : a < q
          · simp [FVal.isFinite, FVal.flt_val_val, osBestFitness, hcomp, eq_comm]
          · simp [FVal.isFinite, FVal.flt_val_val, osBestFitness, hcomp]
        all_goals simp [FVal.isFinite]
      | false =>
        rcases hf : evalF (OffspringSelectionRecombinator.candidateGenotype false
            (decide (u2 < pM)) crossover mutate g1 g2) with q | _ | _ | _
        · by_cases hcomp : q < a
          · simp [FVal.isFinite, FVal.flt_val_val, osBestFitness, hcomp, eq_comm]
          · simp [FVal.isFinite, FVal.flt_val_val, osBestFitness, hcomp]
        all_goals simp [FVal.isFinite]
  · rw [if_pos htrig]
    simp [htrig]

/-- Witness for C2, which is also the spec's Plus-recombinator scenario:
minimization, parents with fitness 5.0 and 7.0, a candidate evaluating to
9.0 — the returned individual is the first parent, with fitness 5.0. -/
theorem plus_survivor_rule_elitist_witness :
    PlusRecombinator.call (α := ℕ) false 0 1 1 0 ⟨0, .val 5⟩ ⟨1, .val 7⟩
      (fun x _ => x) (fun x => x) (fun _ => .val 9) = some ⟨0, .val 5⟩ := by
  have h := plus_survivor_rule_elitist (α := ℕ) false 0 1 1 0 5 7 0 1
    (fun x _ => x) (fun x => x) (fun _ => .val 9) 9 (Or.inl (by norm_num)) rfl
  rw [h.1]
  norm_num [plusBestFitness, plusBestParent]

/-- C4: after `Prepare` records the evaluator's cumulative count, the
selection pressure over a nonempty population equals the evaluations consumed
since `Prepare` divided by the population size, and `Terminate()` reports
true as soon as the selection pressure exceeds `MaxSelectionPressure`. -/
theorem os_selection_pressure_terminate (popSize evals0 extra : ℕ)
    (s : OffspringSelectionRecombinator.State) (baseT : Bool)
    (h : 0 < popSize) :
    OffspringSelectionRecombinator.SelectionPressure popSize (evals0 + extra)
        (OffspringSelectionRecombinator.Prepare evals0 s)
      = (extra : ℚ) / (popSize : ℚ) ∧
    (OffspringSelectionRecombinator.SelectionPressure popSize (evals0 + extra)
          (OffspringSelectionRecombinator.Prepare evals0 s)
        > (s.maxSelectionPressure : ℚ) →
      OffspringSelectionRecombinator.Terminate baseT popSize (evals0 + extra)
        (OffspringSelectionRecombinator.Prepare evals0 s) = true) :=
  by
  have hsp : OffspringSelectionRecombinator.SelectionPressure popSize (evals0 + extra)
      (OffspringSelectionRecombinator.Prepare evals0 s) = (extra : ℚ) / (popSize : ℚ) := by
    unfold OffspringSelectionRecombinator.SelectionPressure
      OffspringSelectionRecombinator.Prepare
    rw [if_neg (Nat.pos_iff_ne_zero.mp h)]
    simp [Nat.add_sub_cancel_left]
  refine ⟨hsp, fun hgt => ?_⟩
  unfold OffspringSelectionRecombinator.Terminate
  have : (OffspringSelectionRecombinator.Prepare evals0 s).maxSelectionPressure
      = s.maxSelectionPressure := rfl
  rw [this]
  simp only [decide_eq_true hgt, Bool.or_true]

/-- Witness for C4, which is also the spec's OffspringSelection scenario:
population size 10, MaxSelectionPressure 2, 25 evaluations consumed since
`Prepare` — the selection pressure is 2.5 and `Terminate()` is true. -/
theorem os_selection_pressure_terminate_witness :
    OffspringSelectionRecombinator.SelectionPressure 10 125
        (OffspringSelectionRecombinator.Prepare 100 ⟨0, 2⟩) = 5 / 2 ∧
    OffspringSelectionRecombinator.Terminate false 10 125
        (OffspringSelectionRecombinator.Prepare 100 ⟨0, 2⟩) = true := by
  have h := os_selection_pressure_terminate 10 100 25 ⟨0, 2⟩ false (by norm_num)
  constructor
  · rw [show (125 : ℕ) = 100 + 25 from rfl, h.1]; norm_num
  · exact h.2 (by rw [h.1]; norm_num)

/-- C10: on an empty population view, `SelectionPressure()` returns 0 (no
division by zero is attempted) and the selection-pressure disjunct of
`Terminate()` never fires: `Terminate()` reduces to the base class's verdict,
for every value of `MaxSelectionPressure`. -/
theorem os_empty_population_pressure_zero (evals : ℕ)
    (s : OffspringSelectionRecombinator.State) (baseT : Bool) :
    OffspringSelectionRecombinator.SelectionPressure 0 evals s = 0 ∧
    OffspringSelectionRecombinator.Terminate baseT 0 evals s = baseT := by
  have hsp : OffspringSelectionRecombinator.SelectionPressure 0 evals s = 0 := by
    unfold OffspringSelectionRecombinator.SelectionPressure
    simp
  refine ⟨hsp, ?_⟩
  unfold OffspringSelectionRecombinator.Terminate
  rw [hsp]
  have : ¬ ((0 : ℚ) > (s.maxSelectionPressure : ℚ)) :=
    not_lt.mpr (Nat.cast_nonneg _)
  simp [this]

/-- A single terminal node used as the C5 failing input. -/
def sampleLeaf : Nd :=
  { Arity := 0, Length := 0, Depth := 1, Parent := 0, IsEnabled := true,
    HashValue := 5, CalculatedHashValue := 5, Value := 3,
    IsCommutative := false, IsConstant := true, IsVariable := false }

/-- C5 (failing input): on the single-node tree `[sampleLeaf]` — which
satisfies the subtree-range invariant — `Subtree(0)` returns the empty tree
(the code copies only `Length(i)` nodes, omitting node `i` itself) instead of
the claimed `Length(0)+1 = 1` nodes ending with node 0. -/
theorem subtree_copy_omits_root :
    SubtreeInvAt [sampleLeaf] 0 ∧ Tree.Subtree [sampleLeaf] 0 = [] ∧
    ([] : List Nd) ≠ [sampleLeaf] := by
  refine ⟨?_, ?_, by simp⟩
  · constructor
    · rfl
    · rfl
  · rfl

theorem childSeq_length (ns : List Nd) :
    ∀ (k : ℕ) (idx : ℤ), (childSeq ns k idx).length = k := by
  intro k
  induction k with
  | zero => intro idx; rfl
  | succ k ih => intro idx; simp [childSeq, ih]

theorem sum_map_natCast (l : List ℤ) (f : ℤ → ℕ) :
    (((l.map f).sum : ℕ) : ℤ) = (l.map (fun c => ((f c : ℕ) : ℤ))).sum := by
  induction l with
  | nil => rfl
  | cons x xs ih => simp [ih]

theorem sum_map_natCast_nonneg (l : List ℤ) (f : ℤ → ℕ) :
    0 ≤ (l.map (fun c => ((f c : ℕ) : ℤ))).sum := by
  apply List.sum_nonneg
  intro x hx
  simp only [List.mem_map] at hx
  obtain ⟨c, -, rfl⟩ := hx
  exact Int.natCast_nonneg _

/-- Exhausting the subtree iterator agrees with the counted child sequence
whenever the cursor balance derived from the subtree-range invariant holds. -/
theorem collectChildren_eq_childSeq (ns : List Nd) (i : ℕ)
    (hLi : (ndAt ns i).Length ≤ i) :
    ∀ (k : ℕ) (idx : ℤ), idx ≤ (i : ℤ) - 1 →
      idx = (i : ℤ) - (ndAt ns i).Length - 1 + k +
        ((childSeq ns k idx).map (fun c => (((ndAt ns c.toNat).Length : ℕ) : ℤ))).sum →
      SubtreeIterator.collectChildren ns i idx = childSeq ns k idx := by
  intro k
  induction k with
  | zero =>
    intro idx _ hbal
    simp only [childSeq, List.map_nil, List.sum_nil, add_zero, Nat.cast_zero] at hbal ⊢
    apply SubtreeIterator.collectChildren_neg
    intro hnx
    obtain ⟨-, -, -, h4⟩ := hnx
    omega
  | succ k ih =>
    intro idx hidx hbal
    simp only [childSeq, List.map_cons, List.sum_cons] at hbal
    have hS := sum_map_natCast_nonneg
      (childSeq ns k (idx - ((ndAt ns idx.toNat).Length + 1)))
      (fun c => (ndAt ns c.toNat).Length)
    have hnx : SubtreeIterator.hasNext ns i idx := by
      refine ⟨?_, ?_, hLi, ?_⟩ <;> omega
    rw [SubtreeIterator.collectChildren_pos ns i idx hnx]
    simp only [childSeq]
    congr 1
    apply ih
    · omega
    · omega

/-- Elements of the counted child sequence stay inside the parent's subtree
range under the cursor balance. -/
theorem childSeq_mem_bounds (ns : List Nd) (i : ℕ)
    (hLi : (ndAt ns i).Length ≤ i) :
    ∀ (k : ℕ) (idx : ℤ), idx ≤ (i : ℤ) - 1 →
      idx = (i : ℤ) - (ndAt ns i).Length - 1 + k +
        ((childSeq ns k idx).map (fun c => (((ndAt ns c.toNat).Length : ℕ) : ℤ))).sum →
      ∀ c ∈ childSeq ns k idx,
        (i : ℤ) - (ndAt ns i).Length ≤ c ∧ c < (i : ℤ) := by
  intro k
  induction k with
  | zero =>
    intro idx _ _ c hc
    simp [childSeq] at hc
  | succ k ih =>
    intro idx hidx hbal c hc
    simp only [childSeq, List.map_cons, List.sum_cons] at hbal
    have hS := sum_map_natCast_nonneg
      (childSeq ns k (idx - ((ndAt ns idx.toNat).Length + 1)))
      (fun c => (ndAt ns c.toNat).Length)
    simp only [childSeq, List.mem_cons] at hc
    rcases hc with rfl | hc
    · constructor <;> omega
    · exact ih (idx - ((ndAt ns idx.toNat).Length + 1)) (by omega) (by omega) c hc

/-- C8: for a tree satisfying the subtree-range invariant at an internal
index `i` (arity at least 1), driving `Children(i)` from its initial cursor
`i-1` until `HasNext()` becomes false yields exactly `Arity(i)` child
positions, each inside the half-open range `[i-Length(i), i)`. -/
theorem children_iteration_yields_arity (ns : List Nd) (i : ℕ)
    (hinv : SubtreeInvAt ns i) (har : 1 ≤ (ndAt ns i).Arity) :
    (SubtreeIterator.collectChildren ns i ((i : ℤ) - 1)).length = (ndAt ns i).Arity ∧
    ∀ c ∈ SubtreeIterator.collectChildren ns i ((i : ℤ) - 1),
      (i : ℤ) - (ndAt ns i).Length ≤ c ∧ c < (i : ℤ) := by
  obtain ⟨hLi, hlen⟩ := hinv
  have hbal : (i : ℤ) - 1 = (i : ℤ) - (ndAt ns i).Length - 1 + (ndAt ns i).Arity +
      ((childSeq ns (ndAt ns i).Arity ((i : ℤ) - 1)).map
        (fun c => (((ndAt ns c.toNat).Length : ℕ) : ℤ))).sum := by
    have hcast : (((ndAt ns i).Length : ℕ) : ℤ)
        = ((ndAt ns i).Arity : ℤ) +
          ((childSeq ns (ndAt ns i).Arity ((i : ℤ) - 1)).map
            (fun c => (((ndAt ns c.toNat).Length : ℕ) : ℤ))).sum := by
      rw [← sum_map_natCast]
      exact_mod_cast congrArg (fun n : ℕ => (n : ℤ)) hlen
    omega
  have heq := collectChildren_eq_childSeq ns i hLi (ndAt ns i).Arity ((i : ℤ) - 1)
    le_rfl hbal
  rw [heq, childSeq_length]
  exact ⟨rfl, childSeq_mem_bounds ns i hLi (ndAt ns i).Arity ((i : ℤ) - 1) le_rfl hbal⟩

/-- A three-node tree `[x, x, (+ x x)]` used as the C8 witness input. -/
def sampleAddTree : List Nd :=
  [ { Arity := 0, Length := 0, Depth := 1, Parent := 2, IsEnabled := true,
      HashValue := 7, CalculatedHashValue := 7, Value := 1,
      IsCommutative := false, IsConstant := false, IsVariable := true },
    { Arity := 0, Length := 0, Depth := 1, Parent := 2, IsEnabled := true,
      HashValue := 7, CalculatedHashValue := 7, Value := 1,
      IsCommutative := false, IsConstant := false, IsVariable := true },
    { Arity := 2, Length := 2, Depth := 2, Parent := 0, IsEnabled := true,
      HashValue := 11, CalculatedHashValue := 11, Value := 0,
      IsCommutative := true, IsConstant := false, IsVariable := false } ]

/-- Witness for C8 on the concrete tree `[x, x, (+ x x)]`: iterating the
children of the root yields exactly its two children, at positions 1 and 0. -/
theorem children_iteration_yields_arity_witness :
    (SubtreeIterator.collectChildren sampleAddTree 2 1).length = 2 ∧
    ∀ c ∈ SubtreeIterator.collectChildren sampleAddTree 2 1,
      (2 : ℤ) - (ndAt sampleAddTree 2).Length ≤ c ∧ c < (2 : ℤ) := by
  have h := children_iteration_yields_arity sampleAddTree 2 (by decide) (by decide)
  simpa using h

/-- A forward-mode dual number ("jet", Ceres `JetT`): scalar part `a` plus
tangent lanes `v` (the C++ type has `Stride` lanes; lanes at or beyond
`Stride` are never read or written here). -/
structure Jet where
  a : ℚ
  v : ℕ → ℚ

namespace TinyCostFunction

/-- One iteration of the tangent-seeding loop of `TinyCostFunction::Evaluate`
(tiny_cost_function.hpp, lines 71-77): zero the jet's tangent, then — while
fewer than `Stride` directions are active and `j` has reached the current
derivative-section cursor — set lane `activeParameterCount` to 1 and bump the
active count.  The state is the jet vector plus `activeParameterCount`. -/
def seedStep (Stride cursor : ℕ) (st : (ℕ → Jet) × ℕ) (j : ℕ) : (ℕ → Jet) × ℕ :=
  let jets := st.1
  let active := st.2
  let jz := Function.update jets j { jets j with v := fun _ => 0 }
  if active < Stride ∧ cursor ≤ j then
    (Function.update jz j { jz j with v := Function.update (jz j).v active 1 },
     active + 1)
  else
    (jz, active)

/-- The whole seeding loop: `for (j = 0; j < numParameters; ++j) ...` with
`activeParameterCount` starting at 0. -/
def seedPass (P Stride cursor : ℕ) (jets : ℕ → Jet) : ℕ → Jet :=
  ((List.range P).foldl (seedStep Stride cursor) (jets, 0)).1

/-- State of the jacobian copy loop (tiny_cost_function.hpp, lines 83-96):
the jacobian (as a row-index/column-index function — the storage-order
template parameter only fixes how `jMap(k, j)` linearizes, not which entries
are written), `activeParameterCount`, `currentDerivativeSectionCursor`, and a
ghost log of the columns written (instrumentation for the write-once
property, not part of the C++ state). -/
structure CopySt where
  jac : ℕ → ℕ → ℚ
  active : ℕ
  cursor : ℕ
  colLog : List ℕ

/-- One iteration of the copy loop body: while fewer than `Stride` columns
were copied this pass, write `jMap(k, j) = outputJets[k].v[active]` for every
residual row `k`, then bump the active count and the cursor. -/
def copyStep (R Stride : ℕ) (out : ℕ → Jet) (st : CopySt) (j : ℕ) : CopySt :=
  if st.active < Stride then
    { jac := fun k j2 => if j2 = j ∧ k < R then (out k).v st.active else st.jac k j2,
      active := st.active + 1, cursor := st.cursor + 1,
      colLog := st.colLog ++ [j] }
  else st

/-- The whole copy loop: `for (j = currentDerivativeSectionCursor;
j < numParameters; ++j) ...` with `activeParameterCount` reset to 0. -/
def copyPass (P R Stride : ℕ) (out : ℕ → Jet) (jac : ℕ → ℕ → ℚ)
    (cursor : ℕ) (log : List ℕ) : CopySt :=
  (List.range' cursor (P - cursor)).foldl (copyStep R Stride out)
    ⟨jac, 0, cursor, log⟩

/-- State threaded through the stride loop of `Evaluate`: the input jets, the
jacobian, the derivative-section cursor, the residual output array, and ghost
instrumentation (residual-write count, functor-call count, column-write log,
and the log of functor inputs) used to state the write-once and
call-count properties. -/
structure EvalSt where
  jets : ℕ → Jet
  jac : ℕ → ℕ → ℚ
  cursor : ℕ
  res : ℕ → ℚ
  resWrites : ℕ
  calls : ℕ
  colLog : List ℕ
  inputLog : List (ℕ → Jet)

/-- One stride (`pass`) of `TinyCostFunction::Evaluate` (tiny_cost_function.hpp,
lines 64-102): seed the jets from the saved cursor, evaluate the functor
(failure aborts the whole evaluation), copy the produced derivative columns,
and — on the final stride only — copy the residual values. -/
def evalPass (P R Stride numStrides : ℕ) (F : (ℕ → Jet) → Option (ℕ → Jet))
    (st : Option EvalSt) (pass : ℕ) : Option EvalSt :=
  match st with
  | none => none
  | some s =>
    let seeded := seedPass P Stride s.cursor s.jets
    match F seeded with
    | none => none
    | some out =>
      let c := copyPass P R Stride out s.jac s.cursor s.colLog
      some { jets := seeded
             jac := c.jac
             cursor := c.cursor
             res := if pass = numStrides - 1
               then (fun k => if k < R then (out k).a else s.res k) else s.res
             resWrites := s.resWrites + (if pass = numStrides - 1 then 1 else 0)
             calls := s.calls + 1
             colLog := c.colLog
             inputLog := s.inputLog ++ [seeded] }

/-- `TinyCostFunction::Evaluate` with a non-null jacobian request
(tiny_cost_function.hpp, lines 34-104).  `P`/`R` are `NumParameters()` and
`NumResiduals()`, read from the wrapped functor; `F` is the wrapped functor
on jets (`none` models a `false` return); `jac0`/`res0` are the initial
(uninitialized) contents of the caller's output arrays.  The stride count is
`ceil(P / Stride)` (the C++ computes it through `float`, exact for any
realistic parameter count).  The `jacobian == nullptr` shortcut path (line
36) performs none of the work modelled here and is outside this model.
`evalInit` is the state before the first stride: scalar parts loaded from
`parameters`, no functor calls, no writes. -/
def evalInit (params : ℕ → ℚ) (jac0 : ℕ → ℕ → ℚ) (res0 : ℕ → ℚ) : EvalSt :=
  { jets := fun j => { a := params j, v := fun _ => 0 }
    jac := jac0, cursor := 0, res := res0, resWrites := 0, calls := 0,
    colLog := [], inputLog := [] }

def Evaluate (P R Stride : ℕ) (params : ℕ → ℚ)
    (F : (ℕ → Jet) → Option (ℕ → Jet)) (jac0 : ℕ → ℕ → ℚ) (res0 : ℕ → ℚ) :
    Option EvalSt :=
  let numStrides := (P + Stride - 1) / Stride
  (List.range numStrides).foldl (evalPass P R Stride numStrides F)
    (some (evalInit params jac0 res0))

/-- The unit tangent produced by the seeding loop for parameter `j` in the
stride whose derivative section starts at `cursor`: lane `j - cursor` is 1
exactly when `j` lies in the active section, all other lanes are 0. -/
def seedTangent (Stride cursor j : ℕ) : ℕ → ℚ :=
  fun lane => if cursor ≤ j ∧ j - cursor < Stride ∧ lane = j - cursor then 1 else 0

/-- The functor input of the stride whose derivative section starts at
`cursor`: scalar parts are the parameters, tangents are the unit seeds of
the active section. -/
def seededInput (P Stride : ℕ) (params : ℕ → ℚ) (cursor : ℕ) : ℕ → Jet :=
  fun j => if j < P then { a := params j, v := seedTangent Stride cursor j }
    else { a := params j, v := fun _ => 0 }

theorem seedFold_spec (Stride cursor : ℕ) (jets : ℕ → Jet) (m : ℕ) :
    (List.range m).foldl (seedStep Stride cursor) (jets, 0)
      = (fun j => if j < m then { a := (jets j).a, v := seedTangent Stride cursor j }
           else jets j,
         min Stride (m - cursor)) := by
  induction m with
  | zero =>
    refine Prod.ext ?_ ?_
    · funext j
      simp
    · simp
  | succ m ih =>
    rw [List.range_succ, List.foldl_append, ih, List.foldl_cons, List.foldl_nil]
    simp only [seedStep]
    by_cases hcond : min Stride (m - cursor) < Stride ∧ cursor ≤ m
    · rw [if_pos hcond]
      have hlt : m - cursor < Stride := by omega
      have hmin : min Stride (m - cursor) = m - cursor := by omega
      refine Prod.ext ?_ ?_
      · funext j
        dsimp only
        by_cases hj : j = m
        · subst hj
          simp only [Function.update_same, lt_irrefl, if_neg (lt_irrefl j),
            if_pos (Nat.lt_succ_self j)]
          refine congrArg (fun w => Jet.mk (jets j).a w) ?_
          funext lane
          rw [hmin]
          simp only [Function.update, seedTangent]
          by_cases hlane : lane = j - cursor
          · simp [hlane, hcond.2, hlt]
          · simp [hlane]
        · have hupd : ∀ w : Jet,
              Function.update (fun j2 => if j2 < m then
                { a := (jets j2).a, v := seedTangent Stride cursor j2 }
                else jets j2) m w j
              = (if j < m then { a := (jets j).a, v := seedTangent Stride cursor j }
                 else jets j) := by
            intro w
            rw [Function.update_noteq hj]
          rw [Function.update_noteq hj, hupd]
          by_cases hjm : j < m
          · simp [hjm, Nat.lt_succ_of_lt hjm]
          · have : ¬ j < m + 1 := by omega
            simp [hjm, this]
      · dsimp only
        omega
    · rw [if_neg hcond]
      refine Prod.ext ?_ ?_
      · funext j
        dsimp only
        by_cases hj : j = m
        · subst hj
          simp only [Function.update_same, if_neg (lt_irrefl j),
            if_pos (Nat.lt_succ_self j)]
          refine congrArg (fun w => Jet.mk (jets j).a w) ?_
          funext lane
          simp only [seedTangent]
          have : ¬ (cursor ≤ j ∧ j - cursor < Stride ∧ lane = j - cursor) := by
            intro ⟨h1, h2, h3⟩
            exact hcond ⟨by omega, h1⟩
          rw [if_neg this]
        · rw [Function.update_noteq hj]
          by_cases hjm : j < m
          · simp [hjm, Nat.lt_succ_of_lt hjm]
          · have : ¬ j < m + 1 := by omega
            simp [hjm, this]
      · dsimp only
        omega

/-- The seeding loop leaves scalar parts untouched, zeroes every tangent and
sets the active section's unit seeds; jets beyond the parameter count are not
touched. -/
theorem seedPass_spec (P Stride cursor : ℕ) (jets : ℕ → Jet) :
    seedPass P Stride cursor jets
      = fun j => if j < P then { a := (jets j).a, v := seedTangent Stride cursor j }
          else jets j := by
  unfold seedPass
  rw [seedFold_spec]

theorem CopySt.ext_mk (a b : CopySt) (h1 : a.jac = b.jac) (h2 : a.active = b.active)
    (h3 : a.cursor = b.cursor) (h4 : a.colLog = b.colLog) : a = b := by
  cases a; cases b; cases h1; cases h2; cases h3; cases h4; rfl

theorem copyFold_general (R Stride : ℕ) (out : ℕ → Jet) :
    ∀ (n s a0 cur0 : ℕ) (jac : ℕ → ℕ → ℚ) (log : List ℕ),
      (List.range' s n).foldl (copyStep R Stride out) ⟨jac, a0, cur0, log⟩
        = ⟨fun k j => if s ≤ j ∧ j < s + min (Stride - a0) n ∧ k < R
             then (out k).v (a0 + (j - s)) else jac k j,
           a0 + min (Stride - a0) n, cur0 + min (Stride - a0) n,
           log ++ List.range' s (min (Stride - a0) n)⟩ := by
  intro n
  induction n with
  | zero =>
    intro s a0 cur0 jac log
    simp only [List.range', List.foldl_nil, Nat.min_zero]
    refine CopySt.ext_mk _ _ ?_ ?_ ?_ ?_
    · funext k j
      dsimp only
      have h : ¬ (s ≤ j ∧ j < s + 0 ∧ k < R) := by omega
      rw [if_neg h]
    · dsimp only
      try omega
    · dsimp only
      try omega
    · simp
  | succ n ih =>
    intro s a0 cur0 jac log
    rw [List.range'_succ, List.foldl_cons]
    by_cases ha : a0 < Stride
    · have hstep : copyStep R Stride out ⟨jac, a0, cur0, log⟩ s
          = ⟨fun k j2 => if j2 = s ∧ k < R then (out k).v a0 else jac k j2,
             a0 + 1, cur0 + 1, log ++ [s]⟩ := by
        simp only [copyStep]
        rw [if_pos ha]
      rw [hstep, ih]
      have hmin : min (Stride - (a0 + 1)) n + 1 = min (Stride - a0) (n + 1) := by
        omega
      refine CopySt.ext_mk _ _ ?_ (by dsimp only; omega) (by dsimp only; omega) ?_
      · funext k j
        dsimp only
        by_cases hks : j = s ∧ k < R
        · obtain ⟨rfl, hk⟩ := hks
          have h1 : ¬ (j + 1 ≤ j ∧ j < j + 1 + min (Stride - (a0 + 1)) n ∧ k < R) := by
            omega
          have h2 : j ≤ j ∧ j < j + min (Stride - a0) (n + 1) ∧ k < R := by
            omega
          rw [if_neg h1, if_pos h2]
          simp [hk]
        · by_cases hmid : s + 1 ≤ j ∧ j < s + 1 + min (Stride - (a0 + 1)) n ∧ k < R
          · have h2 : s ≤ j ∧ j < s + min (Stride - a0) (n + 1) ∧ k < R := by
              omega
            rw [if_pos hmid, if_pos h2]
            have : a0 + 1 + (j - (s + 1)) = a0 + (j - s) := by omega
            rw [this]
          · have h2 : ¬ (s ≤ j ∧ j < s + min (Stride - a0) (n + 1) ∧ k < R) := by
              omega
            rw [if_neg hmid, if_neg h2, if_neg hks]
      · dsimp only
        rw [List.append_assoc]
        congr 1
        rw [← hmin, List.range'_succ]
        rfl
    · have hstep : copyStep R Stride out ⟨jac, a0, cur0, log⟩ s
          = ⟨jac, a0, cur0, log⟩ := by
        simp only [copyStep]
        rw [if_neg ha]
      rw [hstep, ih]
      have hz : min (Stride - a0) n = 0 := by omega
      have hz2 : min (Stride - a0) (n + 1) = 0 := by omega
      refine CopySt.ext_mk _ _ ?_ (by dsimp only; omega) (by dsimp only; omega) ?_
      · funext k j
        dsimp only
        have h1 : ¬ (s + 1 ≤ j ∧ j < s + 1 + min (Stride - a0) n ∧ k < R) := by
          omega
        have h2 : ¬ (s ≤ j ∧ j < s + min (Stride - a0) (n + 1) ∧ k < R) := by
          omega
        rw [if_neg h1, if_neg h2]
      · dsimp only
        rw [hz, hz2]
        simp [List.range']

/-- The copy loop started at cursor `c` writes exactly the columns
`c, c+1, ..., c + min Stride (P-c) - 1`, filling column `j` with tangent lane
`j - c` of the functor output, and advances the cursor accordingly. -/
theorem copyPass_spec (P R Stride : ℕ) (out : ℕ → Jet) (jac : ℕ → ℕ → ℚ)
    (c : ℕ) (log : List ℕ) :
    copyPass P R Stride out jac c log
      = ⟨fun k j => if c ≤ j ∧ j < c + min Stride (P - c) ∧ k < R
           then (out k).v (j - c) else jac k j,
         min Stride (P - c), c + min Stride (P - c),
         log ++ List.range' c (min Stride (P - c))⟩ := by
  unfold copyPass
  rw [copyFold_general]
  simp only [Nat.sub_zero, Nat.zero_add, zero_add]

theorem stride_mul_lt (P Stride p : ℕ) (hS : 1 ≤ Stride)
    (hp : p < (P + Stride - 1) / Stride) : p * Stride < P := by
  have h2 : (p + 1) * Stride ≤ P + Stride - 1 :=
    (Nat.le_div_iff_mul_le (by omega)).mp hp
  have h3 : (p + 1) * Stride = p * Stride + Stride := by ring
  omega

/-- The cursor-balance invariant of the stride loop: after `p` of the
`numStrides` passes, the cursor sits at `min (p*Stride) P`, the functor was
called `p` times on the seeded inputs recorded in order, columns below the
cursor hold their stride's derivative lanes, everything else is untouched,
and the residual array has been written exactly once iff all passes ran. -/
theorem evalFold_invariant (P R Stride : ℕ) (params : ℕ → ℚ)
    (G : (ℕ → Jet) → ℕ → Jet) (F : (ℕ → Jet) → Option (ℕ → Jet))
    (hF : ∀ x, F x = some (G x)) (jac0 : ℕ → ℕ → ℚ) (res0 : ℕ → ℚ)
    (hS : 1 ≤ Stride) (hP : 1 ≤ P) :
    ∀ p, p ≤ (P + Stride - 1) / Stride →
      ∃ s : EvalSt,
        (List.range p).foldl (evalPass P R Stride ((P + Stride - 1) / Stride) F)
            (some (evalInit params jac0 res0)) = some s ∧
        (∀ j, (s.jets j).a = params j) ∧
        (∀ j, P ≤ j → s.jets j = { a := params j, v := fun _ => 0 }) ∧
        s.cursor = min (p * Stride) P ∧
        s.calls = p ∧
        s.colLog = List.range' 0 (min (p * Stride) P) ∧
        s.inputLog = (List.range p).map
          (fun t => seededInput P Stride params (t * Stride)) ∧
        (∀ k j, j < min (p * Stride) P → k < R →
          s.jac k j = (G (seededInput P Stride params ((j / Stride) * Stride)) k).v
            (j % Stride)) ∧
        (∀ k j, (min (p * Stride) P ≤ j ∨ R ≤ k) → s.jac k j = jac0 k j) ∧
        s.resWrites = (if p = (P + Stride - 1) / Stride then 1 else 0) ∧
        (∀ k, s.res k =
          if p = (P + Stride - 1) / Stride ∧ k < R
          then (G (seededInput P Stride params
            (((P + Stride - 1) / Stride - 1) * Stride)) k).a
          else res0 k) := by
  have hN1 : 1 ≤ (P + Stride - 1) / Stride := by
    rw [Nat.le_div_iff_mul_le (by omega : 0 < Stride)]
    omega
  intro p
  induction p with
  | zero =>
    intro _
    refine ⟨evalInit params jac0 res0, rfl, fun j => rfl, fun j _ => rfl,
      by simp [evalInit], rfl, by simp [evalInit], rfl, ?_,
      fun k j _ => rfl, ?_, ?_⟩
    · intro k j hj _
      exact absurd hj (by omega)
    · show (0 : ℕ) = if 0 = (P + Stride - 1) / Stride then 1 else 0
      rw [if_neg (by omega)]
    · intro k
      show res0 k = _
      rw [if_neg (by omega)]
  | succ p ih =>
    intro hp1
    obtain ⟨s, hfold, hjA, hjB, hcur, hcalls, hcol, hinp, hjac1, hjac2, hrw, hres⟩ :=
      ih (by omega)
    have hplt : p < (P + Stride - 1) / Stride := by omega
    have hmul : p * Stride < P := stride_mul_lt P Stride p hS hplt
    have hmin : min (p * Stride) P = p * Stride := by omega
    have hcur' : s.cursor = p * Stride := by rw [hcur, hmin]
    have hseed : seedPass P Stride s.cursor s.jets
        = seededInput P Stride params (p * Stride) := by
      rw [hcur', seedPass_spec]
      funext j
      unfold seededInput
      by_cases hj : j < P
      · simp only [if_pos hj, hjA j]
      · simp only [if_neg hj]
        exact hjB j (by omega)
    have hstep : (List.range (p + 1)).foldl
          (evalPass P R Stride ((P + Stride - 1) / Stride) F)
          (some (evalInit params jac0 res0))
        = evalPass P R Stride ((P + Stride - 1) / Stride) F (some s) p := by
      rw [List.range_succ, List.foldl_append, hfold, List.foldl_cons, List.foldl_nil]
    have hmulS : (p + 1) * Stride = p * Stride + Stride := by ring
    have hred : evalPass P R Stride ((P + Stride - 1) / Stride) F (some s) p
        = some { jets := seededInput P Stride params (p * Stride)
                 jac := (copyPass P R Stride
                   (G (seededInput P Stride params (p * Stride))) s.jac
                   s.cursor s.colLog).jac
                 cursor := (copyPass P R Stride
                   (G (seededInput P Stride params (p * Stride))) s.jac
                   s.cursor s.colLog).cursor
                 res := if p = (P + Stride - 1) / Stride - 1
                   then (fun k => if k < R
                     then (G (seededInput P Stride params (p * Stride)) k).a
                     else s.res k)
                   else s.res
                 resWrites := s.resWrites +
                   (if p = (P + Stride - 1) / Stride - 1 then 1 else 0)
                 calls := s.calls + 1
                 colLog := (copyPass P R Stride
                   (G (seededInput P Stride params (p * Stride))) s.jac
                   s.cursor s.colLog).colLog
                 inputLog := s.inputLog ++ [seededInput P Stride params (p * Stride)] } := by
      simp only [evalPass, hseed, hF]
    rw [hstep, hred]
    rw [copyPass_spec]
    refine ⟨_, rfl, ?_, ?_, ?_, ?_, ?_, ?_, ?_, ?_, ?_, ?_⟩
    · intro j
      dsimp only
      unfold seededInput
      by_cases hj : j < P <;> simp [hj]
    · intro j hj
      dsimp only
      unfold seededInput
      rw [if_neg (show ¬ j < P by omega)]
    · dsimp only
      rw [hcur', hmulS]
      omega
    · dsimp only
      rw [hcalls]
    · dsimp only
      rw [hcur', hcol, hmin]
      have happ := List.range'_append 0 (p * Stride)
        (min Stride (P - p * Stride)) 1
      simp only [Nat.one_mul, Nat.zero_add, zero_add, one_mul] at happ
      rw [happ]
      congr 1
      omega
    · dsimp only
      rw [hinp, List.range_succ, List.map_append, List.map_cons, List.map_nil]
    · intro k j hj hk
      dsimp only
      rw [hcur']
      by_cases hjlow : j < p * Stride
      · rw [if_neg (by omega)]
        exact hjac1 k j (by omega) hk
      · have hjhi : j < p * Stride + min Stride (P - p * Stride) := by
          omega
        rw [if_pos ⟨by omega, hjhi, hk⟩]
        have hdiv : j / Stride = p := by
          apply Nat.div_eq_of_lt_le
          · omega
          · rw [hmulS]
            omega
        have hmod : j % Stride = j - p * Stride := by
          have hcm : Stride * p = p * Stride := Nat.mul_comm _ _
          have hj2 : j = (j - p * Stride) + Stride * p := by omega
          conv_lhs => rw [hj2]
          rw [Nat.add_mul_mod_self_left]
          exact Nat.mod_eq_of_lt (by omega)
        rw [hdiv, hmod]
    · intro k j hcase
      dsimp only
      rw [hcur']
      rcases hcase with hj | hk
      · rw [if_neg (by omega)]
        exact hjac2 k j (Or.inl (by omega))
      · rw [if_neg (by omega)]
        exact hjac2 k j (Or.inr hk)
    · dsimp only
      rw [hrw, if_neg (by omega)]
      by_cases hlast : p = (P + Stride - 1) / Stride - 1
      · rw [if_pos hlast, if_pos (by omega)]
      · rw [if_neg hlast, if_neg (by omega)]
    · intro k
      dsimp only
      by_cases hlast : p = (P + Stride - 1) / Stride - 1
      · rw [if_pos hlast]
        by_cases hk : k < R
        · rw [if_pos hk, if_pos ⟨by omega, hk⟩, hlast]
        · rw [if_neg hk, if_neg (by omega), hres k, if_neg (by omega)]
      · rw [if_neg hlast, hres k, if_neg (by omega), if_neg (by omega)]

theorem le_strideCount_mul (P Stride : ℕ) (hS : 1 ≤ Stride) :
    P ≤ ((P + Stride - 1) / Stride) * Stride := by
  have h := Nat.div_add_mod (P + Stride - 1) Stride
  have hm : (P + Stride - 1) % Stride < Stride := Nat.mod_lt _ (by omega)
  have hcm : Stride * ((P + Stride - 1) / Stride)
      = ((P + Stride - 1) / Stride) * Stride := Nat.mul_comm _ _
  omega

theorem mod_eq_sub_div_mul (j Stride : ℕ) :
    j % Stride = j - (j / Stride) * Stride := by
  have h := Nat.div_add_mod j Stride
  have hcm : Stride * (j / Stride) = (j / Stride) * Stride := Nat.mul_comm _ _
  omega

/-- The seeding of parameter direction `j` is a unit tangent in exactly one
stride: in the stride whose section starts at `p * Stride`, lane `lane` of
jet `j` is 1 exactly when that stride is `j`'s own (`p = j / Stride`) and the
lane is `j`'s slot in it (`lane = j % Stride`); every other lane and every
other stride's tangent for `j` is 0. -/
theorem seedTangent_unit (Stride : ℕ) (hS : 1 ≤ Stride) (p j lane : ℕ) :
    seedTangent Stride (p * Stride) j lane
      = if p = j / Stride ∧ lane = j % Stride then 1 else 0 := by
  have hid : j % Stride = j - (j / Stride) * Stride := mod_eq_sub_div_mul j Stride
  have hml : (j / Stride) * Stride ≤ j := Nat.div_mul_le_self j Stride
  have hmlt : j % Stride < Stride := Nat.mod_lt _ (by omega)
  unfold seedTangent
  by_cases hcond : p * Stride ≤ j ∧ j - p * Stride < Stride ∧ lane = j - p * Stride
  · obtain ⟨h1, h2, h3⟩ := hcond
    have hdiv : j / Stride = p := by
      apply Nat.div_eq_of_lt_le
      · exact h1
      · rw [show (p + 1) * Stride = p * Stride + Stride from by ring]
        omega
    rw [hdiv] at hid
    rw [if_pos ⟨h1, h2, h3⟩, if_pos ⟨hdiv.symm, by omega⟩]
  · rw [if_neg hcond, if_neg ?_]
    rintro ⟨hp, hl⟩
    apply hcond
    subst hp
    refine ⟨hml, by omega, by omega⟩

/-- C7: a jacobian-requesting `Evaluate` with `P >= 1` parameters and an
always-succeeding functor calls the functor exactly `ceil(P / Stride)` times;
every stride's functor input carries the parameters in the scalar parts and
unit tangents for exactly that stride's parameter section (each direction
`j < P` is seeded in exactly one stride, at lane `j % Stride`); each of the
`P` jacobian columns is written exactly once (`colLog = [0, ..., P-1]`),
column `j` receiving lane `j % Stride` of its stride's output; entries
outside the requested rows/columns are untouched; and the residual array is
written exactly once, from the final stride's evaluation. -/
theorem evaluate_strides_spec (P R Stride : ℕ) (params : ℕ → ℚ)
    (G : (ℕ → Jet) → ℕ → Jet) (F : (ℕ → Jet) → Option (ℕ → Jet))
    (hF : ∀ x, F x = some (G x)) (jac0 : ℕ → ℕ → ℚ) (res0 : ℕ → ℚ)
    (hS : 1 ≤ Stride) (hP : 1 ≤ P) :
    ∃ s : EvalSt,
      Evaluate P R Stride params F jac0 res0 = some s ∧
      s.calls = (P + Stride - 1) / Stride ∧
      s.colLog = List.range P ∧
      s.inputLog = (List.range ((P + Stride - 1) / Stride)).map
        (fun t => seededInput P Stride params (t * Stride)) ∧
      (∀ p j lane, j < P →
        (seededInput P Stride params (p * Stride) j).v lane
          = if p = j / Stride ∧ lane = j % Stride then 1 else 0) ∧
      (∀ k j, j < P → k < R →
        s.jac k j = (G (seededInput P Stride params ((j / Stride) * Stride)) k).v
          (j % Stride)) ∧
      (∀ k j, P ≤ j ∨ R ≤ k → s.jac k j = jac0 k j) ∧
      s.resWrites = 1 ∧
      (∀ k, s.res k = if k < R
        then (G (seededInput P Stride params
          (((P + Stride - 1) / Stride - 1) * Stride)) k).a
        else res0 k) := by
  obtain ⟨s, hfold, hjA, hjB, hcur, hcalls, hcol, hinp, hjac1, hjac2, hrw, hres⟩ :=
    evalFold_invariant P R Stride params G F hF jac0 res0 hS hP
      ((P + Stride - 1) / Stride) le_rfl
  have hminP : min (((P + Stride - 1) / Stride) * Stride) P = P := by
    have := le_strideCount_mul P Stride hS
    omega
  refine ⟨s, ?_, hcalls, ?_, hinp, ?_, ?_, ?_, ?_, ?_⟩
  · unfold Evaluate
    exact hfold
  · rw [hcol, hminP, List.range_eq_range']
  · intro p j lane hj
    unfold seededInput
    rw [if_pos hj]
    exact seedTangent_unit Stride hS p j lane
  · intro k j hj hk
    exact hjac1 k j (by omega) hk
  · intro k j hcase
    apply hjac2
    rcases hcase with hj | hk
    · exact Or.inl (by omega)
    · exact Or.inr hk
  · rw [hrw, if_pos rfl]
  · intro k
    rw [hres k]
    by_cases hk : k < R
    · rw [if_pos ⟨rfl, hk⟩, if_pos hk]
    · rw [if_neg (by omega), if_neg hk]

/-- Witness for C7 at `P = 3`, `R = 2`, `Stride = 2` with the identity
functor: two strides (the final one partial), all three columns written once,
one residual write. -/
theorem evaluate_strides_spec_witness :
    ∃ s : EvalSt,
      Evaluate 3 2 2 (fun j => (j : ℚ)) (fun x => some x)
        (fun _ _ => 0) (fun _ => 0) = some s ∧
      s.calls = 2 ∧ s.colLog = List.range 3 ∧ s.resWrites = 1 := by
  obtain ⟨s, h1, h2, h3, -, -, -, -, h8, -⟩ :=
    evaluate_strides_spec 3 2 2 (fun j => (j : ℚ)) (fun x => x)
      (fun x => some x) (fun _ => rfl) (fun _ _ => 0) (fun _ => 0)
      (by norm_num) (by norm_num)
  exact ⟨s, h1, by rw [h2], h3, h8⟩

end TinyCostFunction

/-- `Operon::HashMode` (hash.hpp is not among the sources; the two modes are
taken from the spec: Strict folds leaf numeric values into the hash, Relaxed
ignores them). -/
inductive HashMode where
  | Strict
  | Relaxed
  deriving DecidableEq, Repr

/-- The leaf hash of `Tree::Hash` (tree.hpp, lines 140-153): `HashValue` in
Relaxed mode; in Strict mode the hash of the byte key `(HashValue, Value)`,
abstracted as an uninterpreted two-argument hasher `h2`. -/
def hashLeaf (h2 : ℕ → ℚ → ℕ) (mode : HashMode) (nd : Nd) : ℕ :=
  match mode with
  | .Strict => h2 nd.HashValue nd.Value
  | .Relaxed => nd.HashValue

/-- Modelled from the spec: `Node::operator<` (node.hpp is not among the
sources) is a total order over the subtree structural hash, i.e. it compares
`CalculatedHashValue`. -/
def nodeLtN (a b : Nd) : Prop := a.CalculatedHashValue < b.CalculatedHashValue

instance (a b : Nd) : Decidable (nodeLtN a b) := by
  unfold nodeLtN; infer_instance

/-- The non-strict comparator induced by `Node::operator<` on nodes, as used
by a stable sort with a strict-order comparator: `a` may precede `b` iff
`¬(b < a)`. -/
def ndLe (a b : Nd) : Bool := decide (¬ nodeLtN b a)

/-- The same comparator lifted to node positions of a flat array, as used by
`std::stable_sort(begin, end, [&](auto a, auto b) { return nodes_[a] <
nodes_[b]; })`. -/
def idxLe (ns : List Nd) (a b : ℤ) : Bool :=
  ndLe (ndAt ns a.toNat) (ndAt ns b.toNat)

/-- One iteration of the `Tree::Hash` loop at index `i` (tree.hpp, lines
137-172): a leaf gets its leaf hash; an internal node collects its child
positions with the subtree iterator, stably sorts the first `Arity` of them
by `Node::operator<` when commutative, and hashes the children's
`CalculatedHashValue`s followed by its own `HashValue`, via the uninterpreted
list hasher `h`. -/
def hashAt (h : List ℕ → ℕ) (h2 : ℕ → ℚ → ℕ) (mode : HashMode)
    (ns : List Nd) (i : ℕ) : List Nd :=
  let n := ndAt ns i
  if n.IsLeaf then
    ns.set i { n with CalculatedHashValue := hashLeaf h2 mode n }
  else
    let childIndices := (SubtreeIterator.collectChildren ns i ((i : ℤ) - 1)).take n.Arity
    let sorted := if n.IsCommutative
      then childIndices.mergeSort (idxLe ns)
      else childIndices
    let hashes := (sorted.map (fun j => (ndAt ns j.toNat).CalculatedHashValue))
      ++ [n.HashValue]
    ns.set i { n with CalculatedHashValue := h hashes }

/-- `Tree::Hash` (tree.hpp, lines 126-175): the ascending bottom-up pass. -/
def hashPass (h : List ℕ → ℕ) (h2 : ℕ → ℚ → ℕ) (mode : HashMode)
    (ns : List Nd) : List Nd :=
  (List.range ns.length).foldl (hashAt h h2 mode) ns

/-- `Tree::HashValue` (tree.hpp, line 213): the root's aggregated hash —
`nodes_.empty() ? 0 : nodes_.back().CalculatedHashValue`. -/
def HashValueT (ns : List Nd) : ℕ :=
  if ns.isEmpty then 0 else (ndAt ns (ns.length - 1)).CalculatedHashValue

/-- The contiguous block of the subtree rooted at position `j` —
`[j - Length(j), j]` — as copied by `Tree::Sort`'s
`copy_n(start + j - c.Length, c.Length + 1, ...)`. -/
def blockOf (ns : List Nd) (j : ℤ) : List Nd :=
  let len := (ndAt ns j.toNat).Length
  (ns.drop (j.toNat - len)).take (len + 1)

/-- One iteration of the `Tree::Sort` loop at index `i` (tree.cpp, lines
99-144).  Constants are skipped; variables get their `CalculatedHashValue`
(strict mode folds the weight in, abstracted by `h2x`).  A commutative
operator's child blocks are re-laid-out in the comparator order — when all
children are leaves (`arity == size`) by sorting the node range directly,
otherwise by sorting the child positions and concatenating their blocks.
Every operator then hashes the `CalculatedHashValue`s of its whole descendant
range followed by its own `HashValue` (`xxhash`, abstracted as `hx`).
`std::sort`'s order for tie-breaking is unspecified; the model realizes both
sorts as stable merge sorts, a valid implementation. -/
def sortAt (hx : List ℕ → ℕ) (h2x : ℕ → ℚ → ℕ) (strict : Bool)
    (ns : List Nd) (i : ℕ) : List Nd :=
  let s := ndAt ns i
  if s.IsConstant then ns
  else if s.IsVariable then
    ns.set i { s with CalculatedHashValue :=
      if strict then h2x s.HashValue s.Value else s.HashValue }
  else
    let size := s.Length
    let ns1 :=
      if s.IsCommutative then
        if s.Arity = size then
          ns.take (i - size) ++ ((ns.drop (i - size)).take size).mergeSort ndLe
            ++ ns.drop i
        else
          let children := SubtreeIterator.collectChildren ns i ((i : ℤ) - 1)
          let sortedIdx := children.mergeSort (idxLe ns)
          let newSeg := (sortedIdx.map (fun j => blockOf ns j)).flatten
          ns.take (i - size) ++ newSeg ++ ns.drop i
      else ns
    let hashes := (((ns1.drop (i - size)).take size).map
      (fun n => n.CalculatedHashValue)) ++ [s.HashValue]
    ns1.set i { ndAt ns1 i with CalculatedHashValue := hx hashes }

/-- The in-place canonicalization loop of `Tree::Sort` (tree.cpp, lines
86-144), before the final `UpdateNodes`. -/
def sortCore (hx : List ℕ → ℕ) (h2x : ℕ → ℚ → ℕ) (strict : Bool)
    (ns : List Nd) : List Nd :=
  (List.range ns.length).foldl (sortAt hx h2x strict) ns

/-- `Tree::Sort` (tree.cpp, lines 86-146): the canonicalization pass followed
by `UpdateNodes`. -/
def SortT (hx : List ℕ → ℕ) (h2x : ℕ → ℚ → ℕ) (strict : Bool)
    (ns : List Nd) : List Nd :=
  Tree.UpdateNodes (sortCore hx h2x strict ns)

/-- Recursive view of a postfix tree.  Children are listed in iterator order
(rightmost child first), matching `SubtreeIterator`'s traversal. -/
inductive RTree where
  | node (nd : Nd) (cs : List RTree)

/-- The payload of a subtree's root. -/
def RTree.root : RTree → Nd
  | .node nd _ => nd

mutual

/-- The flat postfix layout of a subtree: the children's blocks from leftmost
to rightmost followed by the root. -/
def RTree.flat : RTree → List Nd
  | .node nd cs => (flatList cs).reverse.flatten ++ [nd]

/-- The flat blocks of a forest given in iterator order, one per tree. -/
def flatList : List RTree → List (List Nd)
  | [] => []
  | t :: ts => RTree.flat t :: flatList ts

end

/-- The flat layout of a forest given in iterator order (rightmost tree
first): leftmost block first. -/
def flatForest (cs : List RTree) : List Nd :=
  (flatList cs).reverse.flatten

theorem flatList_eq_map (cs : List RTree) : flatList cs = cs.map RTree.flat := by
  induction cs with
  | nil => rfl
  | cons t ts ih => simp [flatList, ih]

theorem RTree.flat_def (nd : Nd) (cs : List RTree) :
    (RTree.node nd cs).flat = flatForest cs ++ [nd] := by
  rw [RTree.flat, flatForest]

mutual

/-- Well-formedness of the recursive view: every node's `Arity` is its child
count, its `Length` is its descendant count — i.e. the derived fields
satisfy the subtree-range invariant — and terminal payloads (constants and
variables) have no children. -/
def RTree.wfB : RTree → Bool
  | .node nd cs =>
    decide (nd.Arity = cs.length) &&
    decide (nd.Length + 1 = (RTree.node nd cs).flat.length) &&
    (!(nd.IsConstant || nd.IsVariable) || cs.isEmpty) &&
    wfList cs

/-- Well-formedness of every tree of a forest. -/
def wfList : List RTree → Bool
  | [] => true
  | t :: ts => RTree.wfB t && wfList ts

end

/-- Comparator on hash values: the image of the node comparator under
`CalculatedHashValue`. -/
def natLe (a b : ℕ) : Bool := decide (a ≤ b)

/-- Comparator on subtrees: the node comparator applied to the roots. -/
def treeLe (a b : RTree) : Bool := ndLe a.root b.root

mutual

/-- The structural hash of a subtree as computed bottom-up by `Tree::Hash`:
the leaf hash for terminals; for operators, the child hashes — sorted when
the operator is commutative — followed by the node's own `HashValue`,
combined by the uninterpreted hasher `h`. -/
def RTree.rhash (h : List ℕ → ℕ) (h2 : ℕ → ℚ → ℕ) (mode : HashMode) :
    RTree → ℕ
  | .node nd cs =>
    if nd.IsLeaf then hashLeaf h2 mode nd
    else h ((if nd.IsCommutative
        then (rhashList h h2 mode cs).mergeSort natLe
        else rhashList h h2 mode cs) ++ [nd.HashValue])

/-- The subtree hashes of a forest, in iterator order. -/
def rhashList (h : List ℕ → ℕ) (h2 : ℕ → ℚ → ℕ) (mode : HashMode) :
    List RTree → List ℕ
  | [] => []
  | t :: ts => RTree.rhash h h2 mode t :: rhashList h h2 mode ts

end

theorem rhashList_eq_map (h : List ℕ → ℕ) (h2 : ℕ → ℚ → ℕ) (mode : HashMode)
    (cs : List RTree) : rhashList h h2 mode cs = cs.map (RTree.rhash h h2 mode) := by
  induction cs with
  | nil => rfl
  | cons t ts ih => simp [rhashList, ih]

mutual

/-- The recursive model of the `Tree::Hash` pass: every node's
`CalculatedHashValue` becomes its subtree's structural hash. -/
def RTree.hmap (h : List ℕ → ℕ) (h2 : ℕ → ℚ → ℕ) (mode : HashMode) :
    RTree → RTree
  | .node nd cs =>
    .node { nd with CalculatedHashValue := RTree.rhash h h2 mode (.node nd cs) }
      (hmapList h h2 mode cs)

/-- `RTree.hmap` over a forest. -/
def hmapList (h : List ℕ → ℕ) (h2 : ℕ → ℚ → ℕ) (mode : HashMode) :
    List RTree → List RTree
  | [] => []
  | t :: ts => RTree.hmap h h2 mode t :: hmapList h h2 mode ts

end

theorem hmapList_eq_map (h : List ℕ → ℕ) (h2 : ℕ → ℚ → ℕ) (mode : HashMode)
    (cs : List RTree) : hmapList h h2 mode cs = cs.map (RTree.hmap h h2 mode) := by
  induction cs with
  | nil => rfl
  | cons t ts ih => simp [hmapList, ih]

mutual

/-- The recursive model of the `Tree::Sort` canonicalization pass: constants
are untouched, variables get their `CalculatedHashValue`, and an operator
node first canonicalizes its children, then — when commutative — re-lays
them out in comparator order (sorting the nodes directly when all children
are leaves, the child blocks otherwise), and finally hashes its reordered
descendant range's `CalculatedHashValue`s followed by its own `HashValue`. -/
def RTree.smap (hx : List ℕ → ℕ) (h2x : ℕ → ℚ → ℕ) (strict : Bool) :
    RTree → RTree
  | .node nd cs =>
    if nd.IsConstant then .node nd cs
    else if nd.IsVariable then
      .node { nd with CalculatedHashValue :=
        if strict then h2x nd.HashValue nd.Value else nd.HashValue } cs
    else
      let cs1 := smapList hx h2x strict cs
      let cs2 :=
        if nd.IsCommutative then
          if nd.Arity = nd.Length then
            (((cs1.reverse.map RTree.root).mergeSort ndLe).map
              (fun m => RTree.node m [])).reverse
          else
            (cs1.mergeSort treeLe).reverse
        else cs1
      let seg := (flatForest cs2).map (fun n => n.CalculatedHashValue)
      .node { nd with CalculatedHashValue := hx (seg ++ [nd.HashValue]) } cs2

/-- `RTree.smap` over a forest. -/
def smapList (hx : List ℕ → ℕ) (h2x : ℕ → ℚ → ℕ) (strict : Bool) :
    List RTree → List RTree
  | [] => []
  | t :: ts => RTree.smap hx h2x strict t :: smapList hx h2x strict ts

end

theorem smapList_eq_map (hx : List ℕ → ℕ) (h2x : ℕ → ℚ → ℕ) (strict : Bool)
    (cs : List RTree) :
    smapList hx h2x strict cs = cs.map (RTree.smap hx h2x strict) := by
  induction cs with
  | nil => rfl
  | cons t ts ih => simp [smapList, ih]

theorem flatForest_nil : flatForest [] = [] := rfl

theorem flatForest_cons (t : RTree) (ts : List RTree) :
    flatForest (t :: ts) = flatForest ts ++ t.flat := by
  unfold flatForest
  rw [flatList]
  simp

theorem flat_length_pos (t : RTree) : 0 < t.flat.length := by
  obtain ⟨nd, cs⟩ := t
  rw [RTree.flat_def]
  simp

theorem flatForest_length (cs : List RTree) :
    (flatForest cs).length = (cs.map (fun c => c.flat.length)).sum := by
  induction cs with
  | nil => rfl
  | cons t ts ih => simp [flatForest_cons, ih]; omega

theorem wfList_iff (cs : List RTree) :
    wfList cs = true ↔ ∀ c ∈ cs, c.wfB = true := by
  induction cs with
  | nil => simp [wfList]
  | cons t ts ih => simp [wfList, ih]

theorem wfB_iff (nd : Nd) (cs : List RTree) :
    (RTree.node nd cs).wfB = true ↔
      nd.Arity = cs.length ∧ nd.Length = (flatForest cs).length ∧
      (nd.IsConstant = true ∨ nd.IsVariable = true → cs = []) ∧
      (∀ c ∈ cs, c.wfB = true) := by
  rw [RTree.wfB]
  simp only [Bool.and_eq_true, decide_eq_true_eq, wfList_iff, RTree.flat_def,
    Bool.or_eq_true, Bool.not_eq_true]
  constructor
  · rintro ⟨⟨⟨h1, h2⟩, h3⟩, h4⟩
    refine ⟨h1, by simp at h2; omega, ?_, h4⟩
    intro hcv
    rcases h3 with h3 | h3
    · rcases hcv with h | h <;> simp [h] at h3 <;> simp_all
    · exact List.isEmpty_iff.mp h3
  · rintro ⟨h1, h2, h3, h4⟩
    refine ⟨⟨⟨h1, by simp; omega⟩, ?_⟩, h4⟩
    by_cases hcv : nd.IsConstant = true ∨ nd.IsVariable = true
    · exact Or.inr (List.isEmpty_iff.mpr (h3 hcv))
    · left
      rw [not_or] at hcv
      obtain ⟨hc, hv⟩ := hcv
      rw [Bool.not_eq_true] at hc hv
      simp [hc, hv]

theorem length_le_sum_of_one_le (l : List ℕ) (h : ∀ x ∈ l, 1 ≤ x) :
    l.length ≤ l.sum := by
  induction l with
  | nil => simp
  | cons x xs ih =>
    simp only [List.length_cons, List.sum_cons]
    have hx := h x (by simp)
    have := ih (fun y hy => h y (by simp [hy]))
    omega

theorem all_one_of_sum_eq_length (l : List ℕ) (h : ∀ x ∈ l, 1 ≤ x)
    (hs : l.sum = l.length) : ∀ x ∈ l, x = 1 := by
  induction l with
  | nil => simp
  | cons x xs ih =>
    simp only [List.sum_cons, List.length_cons] at hs
    have hx := h x (by simp)
    have hrest := length_le_sum_of_one_le xs (fun y hy => h y (by simp [hy]))
    intro y hy
    rcases List.mem_cons.mp hy with rfl | hy2
    · omega
    · exact ih (fun z hz => h z (by simp [hz])) (by omega) y hy2

theorem flatForest_eq_nil (cs : List RTree) (h : flatForest cs = []) : cs = [] := by
  cases cs with
  | nil => rfl
  | cons t ts =>
    rw [flatForest_cons] at h
    have h2 := (List.append_eq_nil.mp h).2
    have h3 := flat_length_pos t
    rw [h2] at h3
    simp at h3

theorem leaf_shape_of_flat_length_one (t : RTree) (h : t.flat.length = 1) :
    ∃ m, t = RTree.node m [] := by
  obtain ⟨nd, cs⟩ := t
  rw [RTree.flat_def] at h
  simp at h
  exact ⟨nd, by rw [flatForest_eq_nil cs h]⟩

theorem smap_leaf_shape (hx : List ℕ → ℕ) (h2x : ℕ → ℚ → ℕ) (strict : Bool)
    (m : Nd) : ∃ m2, RTree.smap hx h2x strict (.node m []) = .node m2 [] := by
  rw [RTree.smap]
  by_cases hc : m.IsConstant
  · refine ⟨m, ?_⟩
    simp [hc]
  · by_cases hv : m.IsVariable
    · rw [if_neg hc, if_pos hv]
      exact ⟨_, rfl⟩
    · by_cases hcm : m.IsCommutative
      · by_cases hal : m.Arity = m.Length
        · simp only [if_neg hc, if_neg hv, if_pos hcm, if_pos hal, smapList,
            List.reverse_nil, List.map_nil, List.mergeSort_nil]
          exact ⟨_, rfl⟩
        · simp only [if_neg hc, if_neg hv, if_pos hcm, if_neg hal, smapList,
            List.reverse_nil, List.mergeSort_nil]
          exact ⟨_, rfl⟩
      · simp only [if_neg hc, if_neg hv, if_neg hcm, smapList]
        exact ⟨_, rfl⟩

/-- Under well-formedness, `smap` replaces the root's `CalculatedHashValue`
and permutes the canonicalized children. -/
theorem smap_children_perm (hx : List ℕ → ℕ) (h2x : ℕ → ℚ → ℕ) (strict : Bool)
    (nd : Nd) (cs : List RTree) (hwf : (RTree.node nd cs).wfB = true) :
    ∃ chv cs2, RTree.smap hx h2x strict (.node nd cs)
        = .node { nd with CalculatedHashValue := chv } cs2 ∧
      cs2.Perm (smapList hx h2x strict cs) ∧
      (nd.IsCommutative = false → cs2 = smapList hx h2x strict cs) := by
  obtain ⟨ha, hl, hcv, hwfc⟩ := (wfB_iff nd cs).mp hwf
  rw [RTree.smap]
  by_cases hc : nd.IsConstant
  · rw [if_pos hc]
    have hnil : cs = [] := hcv (Or.inl hc)
    subst hnil
    exact ⟨nd.CalculatedHashValue, [], rfl, by simp [smapList], fun _ => rfl⟩
  · rw [if_neg hc]
    by_cases hv : nd.IsVariable
    · rw [if_pos hv]
      have hnil : cs = [] := hcv (Or.inr hv)
      subst hnil
      exact ⟨_, [], rfl, by simp [smapList], fun _ => rfl⟩
    · rw [if_neg hv]
      by_cases hcm : nd.IsCommutative
      · by_cases hal : nd.Arity = nd.Length
        · simp only [if_pos hcm, if_pos hal]
          refine ⟨_, _, rfl, ?_, fun hfalse => by rw [hcm] at hfalse; cases hfalse⟩
          -- all children are single-node subtrees
          have hone : ∀ c ∈ cs, c.flat.length = 1 := by
            have hsum : (cs.map (fun c => c.flat.length)).sum
                = (cs.map (fun c => c.flat.length)).length := by
              rw [← flatForest_length, ← hl]
              simp [← ha, hal]
            have hpos : ∀ x ∈ cs.map (fun c => c.flat.length), 1 ≤ x := by
              intro x hxm
              obtain ⟨c, -, rfl⟩ := List.mem_map.mp hxm
              exact flat_length_pos c
            intro c hcmem
            exact all_one_of_sum_eq_length _ hpos hsum _
              (List.mem_map.mpr ⟨c, hcmem, rfl⟩)
          have hshape : ∀ c ∈ smapList hx h2x strict cs,
              c = RTree.node c.root [] := by
            rw [smapList_eq_map]
            intro c hcmem
            obtain ⟨c0, hc0, rfl⟩ := List.mem_map.mp hcmem
            obtain ⟨m, rfl⟩ := leaf_shape_of_flat_length_one c0 (hone c0 hc0)
            obtain ⟨m2, hm2⟩ := smap_leaf_shape hx h2x strict m
            rw [hm2]
            rfl
          set cs1 := smapList hx h2x strict cs with hcs1
          have hrebuild : (cs1.reverse.map RTree.root).map
              (fun m => RTree.node m []) = cs1.reverse := by
            rw [List.map_map]
            conv_rhs => rw [← List.map_id cs1.reverse]
            apply List.map_congr_left
            intro c hcmem
            exact (hshape c (by simpa using hcmem)).symm
          refine (List.reverse_perm _).trans ?_
          refine (List.Perm.map _ (List.mergeSort_perm _ _)).trans ?_
          rw [hrebuild]
          exact List.reverse_perm _
        · simp only [if_pos hcm, if_neg hal]
          refine ⟨_, _, rfl, ?_, fun hfalse => by rw [hcm] at hfalse; cases hfalse⟩
          exact (List.reverse_perm _).trans (List.mergeSort_perm _ _)
      · simp only [if_neg hcm]
        exact ⟨_, _, rfl, List.Perm.refl _, fun _ => rfl⟩

theorem natLe_trans : ∀ (a b c : ℕ), natLe a b = true → natLe b c = true →
    natLe a c = true := by
  intro a b c hab hbc
  simp only [natLe, decide_eq_true_eq] at hab hbc ⊢
  omega

theorem natLe_total : ∀ (a b : ℕ), (natLe a b || natLe b a) = true := by
  intro a b
  simp only [natLe, Bool.or_eq_true, decide_eq_true_eq]
  omega

/-- Sorting hash values by the total order is determined by the multiset:
permutation-equal inputs sort to the same list. -/
theorem mergeSort_natLe_eq_of_perm {l l2 : List ℕ} (hp : l.Perm l2) :
    l.mergeSort natLe = l2.mergeSort natLe := by
  apply List.eq_of_perm_of_sorted (r := fun a b : ℕ => a ≤ b)
  · exact (List.mergeSort_perm l natLe).trans
      (hp.trans (List.mergeSort_perm l2 natLe).symm)
  · exact (List.sorted_mergeSort natLe_trans natLe_total l).imp
      (fun hab => by simpa [natLe] using hab)
  · exact (List.sorted_mergeSort natLe_trans natLe_total l2).imp
      (fun hab => by simpa [natLe] using hab)

mutual

/-- The Relaxed structural hash is invariant under the canonicalization
model: `smap` only permutes commutative children (and rewrites
`CalculatedHashValue` payloads, which the recomputed hash ignores). -/
theorem rhash_smap (h : List ℕ → ℕ) (h2 : ℕ → ℚ → ℕ)
    (hx : List ℕ → ℕ) (h2x : ℕ → ℚ → ℕ) (strict : Bool) :
    ∀ t : RTree, t.wfB = true →
      RTree.rhash h h2 .Relaxed (RTree.smap hx h2x strict t)
        = RTree.rhash h h2 .Relaxed t
  | .node nd cs, hwf => by
    obtain ⟨chv, cs2, hsm, hperm, hexact⟩ :=
      smap_children_perm hx h2x strict nd cs hwf
    have hwfc : wfList cs = true := by
      have := (wfB_iff nd cs).mp hwf
      exact (wfList_iff cs).mpr this.2.2.2
    rw [hsm, RTree.rhash, RTree.rhash]
    by_cases hl : nd.IsLeaf
    · have hl2 : ({ nd with CalculatedHashValue := chv } : Nd).IsLeaf = true := hl
      rw [if_pos hl2, if_pos hl]
      rfl
    · have hl2 : ¬ ({ nd with CalculatedHashValue := chv } : Nd).IsLeaf = true := hl
      rw [if_neg hl2, if_neg hl]
      have hHV : ({ nd with CalculatedHashValue := chv } : Nd).HashValue
          = nd.HashValue := rfl
      have hCM : ({ nd with CalculatedHashValue := chv } : Nd).IsCommutative
          = nd.IsCommutative := rfl
      rw [hHV, hCM]
      congr 1
      rcases Bool.eq_false_or_eq_true nd.IsCommutative with hcm | hcm
      case _ =>
        rw [hcm]
        simp only [if_true]
        congr 1
        apply mergeSort_natLe_eq_of_perm
        rw [rhashList_eq_map, rhashList_eq_map]
        refine (hperm.map _).trans ?_
        rw [← rhashList_eq_map, ← rhashList_eq_map,
          rhash_smap_list h h2 hx h2x strict cs hwfc]
      case _ =>
        rw [hcm]
        simp only [Bool.false_eq_true, if_false]
        rw [hexact hcm, rhash_smap_list h h2 hx h2x strict cs hwfc]

/-- Pointwise Relaxed-hash invariance over a forest. -/
theorem rhash_smap_list (h : List ℕ → ℕ) (h2 : ℕ → ℚ → ℕ)
    (hx : List ℕ → ℕ) (h2x : ℕ → ℚ → ℕ) (strict : Bool) :
    ∀ cs : List RTree, wfList cs = true →
      rhashList h h2 .Relaxed (smapList hx h2x strict cs)
        = rhashList h h2 .Relaxed cs
  | [], _ => rfl
  | t :: ts, hwf => by
    have hw : t.wfB = true ∧ wfList ts = true := by
      have := hwf
      rw [wfList, Bool.and_eq_true] at this
      exact this
    rw [smapList, rhashList, rhashList,
      rhash_smap h h2 hx h2x strict t hw.1,
      rhash_smap_list h h2 hx h2x strict ts hw.2]

end

theorem wfB_root_len (t : RTree) (hwf : t.wfB = true) :
    t.root.Length + 1 = t.flat.length := by
  obtain ⟨nd, cs⟩ := t
  obtain ⟨-, hl, -, -⟩ := (wfB_iff nd cs).mp hwf
  rw [RTree.flat_def]
  simp [RTree.root, hl]

theorem ndAt_append_right (A B : List Nd) (r : ℕ) :
    ndAt (A ++ B) (A.length + r) = ndAt B r := by
  unfold ndAt
  rw [List.getD_append_right _ _ _ _ (by omega)]
  congr 1
  omega

theorem ndAt_append_left (A B : List Nd) (r : ℕ) (h : r < A.length) :
    ndAt (A ++ B) r = ndAt A r :=
  List.getD_append A B default r h

theorem ndAt_block (A X B : List Nd) (r : ℕ) (h : r < X.length) :
    ndAt (A ++ X ++ B) (A.length + r) = ndAt X r := by
  rw [List.append_assoc, ndAt_append_right, ndAt_append_left _ _ _ h]

theorem flat_last (t : RTree) :
    ndAt t.flat (t.flat.length - 1) = t.root := by
  obtain ⟨nd, cs⟩ := t
  rw [RTree.flat_def]
  unfold ndAt RTree.root
  rw [List.length_append, List.length_singleton,
    List.getD_append_right _ _ _ _ (by omega)]
  simp

/-- The positions of a forest's roots inside a flat array whose forest part
starts at offset `p`, in iterator order (rightmost root first). -/
def rootPositions (p : ℕ) : List RTree → List ℤ
  | [] => []
  | d :: ds => ((p : ℤ) + (flatForest (d :: ds)).length - 1) :: rootPositions p ds

/-- Walking the iterator's stride from the right end of a forest layout
visits exactly the forest's root positions. -/
theorem childSeq_forest (A : List Nd) (ds : List RTree) :
    ∀ B : List Nd, (∀ d ∈ ds, d.root.Length + 1 = d.flat.length) →
      childSeq (A ++ flatForest ds ++ B) ds.length
          ((A.length : ℤ) + (flatForest ds).length - 1)
        = rootPositions A.length ds := by
  induction ds with
  | nil => intro B _; rfl
  | cons d ds ih =>
    intro B hlen
    have hpos := flat_length_pos d
    have hd := hlen d (by simp)
    have hFd : flatForest (d :: ds) = flatForest ds ++ d.flat := flatForest_cons d ds
    have hns : A ++ flatForest (d :: ds) ++ B
        = (A ++ flatForest ds) ++ d.flat ++ B := by
      rw [hFd]
      simp [List.append_assoc]
    have hns2 : A ++ flatForest (d :: ds) ++ B
        = A ++ flatForest ds ++ (d.flat ++ B) := by
      rw [hFd]
      simp [List.append_assoc]
    simp only [List.length_cons]
    rw [childSeq]
    have hstart : (((A.length : ℤ) + (flatForest (d :: ds)).length - 1)).toNat
        = (A ++ flatForest ds).length + (d.flat.length - 1) := by
      rw [hFd]
      simp only [List.length_append]
      omega
    have hroot : ndAt (A ++ flatForest (d :: ds) ++ B)
        (((A.length : ℤ) + (flatForest (d :: ds)).length - 1)).toNat = d.root := by
      rw [hstart, hns, ndAt_block _ _ _ _ (by omega)]
      exact flat_last d
    rw [hroot]
    have hstep : (A.length : ℤ) + (flatForest (d :: ds)).length - 1
        - (d.root.Length + 1) = (A.length : ℤ) + (flatForest ds).length - 1 := by
      rw [hFd]
      simp only [List.length_append]
      push_cast
      omega
    rw [hstep]
    rw [hns2, ih (d.flat ++ B) (fun c hc => hlen c (by simp [hc]))]
    rfl

/-- The nodes found at the forest's root positions are exactly the roots. -/
theorem rootPositions_vals (A : List Nd) (ds : List RTree) :
    ∀ B : List Nd, (∀ d ∈ ds, d.root.Length + 1 = d.flat.length) →
      (rootPositions A.length ds).map
          (fun c => ndAt (A ++ flatForest ds ++ B) c.toNat)
        = ds.map RTree.root := by
  induction ds with
  | nil => intro B _; rfl
  | cons d ds ih =>
    intro B hlen
    have hpos := flat_length_pos d
    have hFd : flatForest (d :: ds) = flatForest ds ++ d.flat := flatForest_cons d ds
    have hns : A ++ flatForest (d :: ds) ++ B
        = (A ++ flatForest ds) ++ d.flat ++ B := by
      rw [hFd]
      simp [List.append_assoc]
    have hns2 : A ++ flatForest (d :: ds) ++ B
        = A ++ flatForest ds ++ (d.flat ++ B) := by
      rw [hFd]
      simp [List.append_assoc]
    rw [rootPositions, List.map_cons]
    congr 1
    · have hstart : (((A.length : ℤ) + (flatForest (d :: ds)).length - 1)).toNat
          = (A ++ flatForest ds).length + (d.flat.length - 1) := by
        rw [hFd]
        simp only [List.length_append]
        omega
      rw [hstart, hns, ndAt_block _ _ _ _ (by omega)]
      exact flat_last d
    · rw [hns2, ih (d.flat ++ B) (fun c hc => hlen c (by simp [hc]))]

theorem rootPositions_length (p : ℕ) (ds : List RTree) :
    (rootPositions p ds).length = ds.length := by
  induction ds with
  | nil => rfl
  | cons d ds ih => simp [rootPositions, ih]

theorem rootPositions_lengths_map (A : List Nd) (ds : List RTree) (B : List Nd)
    (hlen : ∀ d ∈ ds, d.root.Length + 1 = d.flat.length) :
    (rootPositions A.length ds).map
        (fun c => (ndAt (A ++ flatForest ds ++ B) c.toNat).Length)
      = ds.map (fun d => d.root.Length) := by
  have h := rootPositions_vals A ds B hlen
  have h2 : (rootPositions A.length ds).map
      (fun c => (ndAt (A ++ flatForest ds ++ B) c.toNat).Length)
      = ((rootPositions A.length ds).map
        (fun c => ndAt (A ++ flatForest ds ++ B) c.toNat)).map
          (fun n => n.Length) := by
    rw [List.map_map]
    rfl
  rw [h2, h, List.map_map]
  rfl

theorem sum_flat_lengths (cs : List RTree)
    (hlen : ∀ d ∈ cs, d.root.Length + 1 = d.flat.length) :
    (flatForest cs).length = cs.length + (cs.map (fun d => d.root.Length)).sum := by
  induction cs with
  | nil => rfl
  | cons d ds ih =>
    rw [flatForest_cons]
    simp only [List.length_append, List.map_cons, List.sum_cons, List.length_cons]
    have hd := hlen d (by simp)
    have := ih (fun c hc => hlen c (by simp [hc]))
    omega

theorem ndAt_root_pos (A B : List Nd) (nd : Nd) (cs : List RTree) :
    ndAt (A ++ (RTree.node nd cs).flat ++ B) (A.length + (flatForest cs).length)
      = nd := by
  rw [RTree.flat_def,
    show A ++ (flatForest cs ++ [nd]) ++ B = (A ++ flatForest cs) ++ [nd] ++ B
      from by simp [List.append_assoc],
    show A.length + (flatForest cs).length = (A ++ flatForest cs).length + 0
      from by simp,
    ndAt_block _ _ _ _ (by simp)]
  rfl

/-- The subtree-range invariant holds at the root position of a well-formed
subtree laid out inside any context. -/
theorem subtreeInv_at_root (A B : List Nd) (nd : Nd) (cs : List RTree)
    (hwf : (RTree.node nd cs).wfB = true) :
    SubtreeInvAt (A ++ (RTree.node nd cs).flat ++ B)
      (A.length + (flatForest cs).length) := by
  obtain ⟨ha, hl, hcv, hwfc⟩ := (wfB_iff nd cs).mp hwf
  have hlen : ∀ d ∈ cs, d.root.Length + 1 = d.flat.length :=
    fun d hd => wfB_root_len d (hwfc d hd)
  have hi := ndAt_root_pos A B nd cs
  constructor
  · rw [hi]
    omega
  · rw [hi]
    have hcast : ((A.length + (flatForest cs).length : ℕ) : ℤ) - 1
        = (A.length : ℤ) + (flatForest cs).length - 1 := by push_cast; omega
    have hset : A ++ (RTree.node nd cs).flat ++ B
        = A ++ flatForest cs ++ ([nd] ++ B) := by
      rw [RTree.flat_def]
      simp [List.append_assoc]
    rw [hcast, ha, hset, childSeq_forest A cs ([nd] ++ B) hlen,
      rootPositions_lengths_map A cs ([nd] ++ B) hlen]
    have := sum_flat_lengths cs hlen
    omega

/-- Exhausting the subtree iterator at an index satisfying the invariant
equals the counted child walk (shared helper). -/
theorem collect_eq_childSeq_of_inv (ns : List Nd) (i : ℕ)
    (hinv : SubtreeInvAt ns i) :
    SubtreeIterator.collectChildren ns i ((i : ℤ) - 1)
      = childSeq ns (ndAt ns i).Arity ((i : ℤ) - 1) := by
  obtain ⟨hLi, hlen⟩ := hinv
  apply collectChildren_eq_childSeq ns i hLi (ndAt ns i).Arity ((i : ℤ) - 1) le_rfl
  have hcast : (((ndAt ns i).Length : ℕ) : ℤ)
      = ((ndAt ns i).Arity : ℤ) +
        ((childSeq ns (ndAt ns i).Arity ((i : ℤ) - 1)).map
          (fun c => (((ndAt ns c.toNat).Length : ℕ) : ℤ))).sum := by
    rw [← sum_map_natCast]
    exact_mod_cast congrArg (fun n : ℕ => (n : ℤ)) hlen
  omega

/-- The iterator's full child walk at a well-formed subtree's root inside any
context yields exactly the child-root positions. -/
theorem collect_forest (A B : List Nd) (nd : Nd) (cs : List RTree)
    (hwf : (RTree.node nd cs).wfB = true) :
    SubtreeIterator.collectChildren (A ++ (RTree.node nd cs).flat ++ B)
        (A.length + (flatForest cs).length)
        (((A.length + (flatForest cs).length : ℕ) : ℤ) - 1)
      = rootPositions A.length cs := by
  obtain ⟨ha, hl, hcv, hwfc⟩ := (wfB_iff nd cs).mp hwf
  have hlen : ∀ d ∈ cs, d.root.Length + 1 = d.flat.length :=
    fun d hd => wfB_root_len d (hwfc d hd)
  rw [collect_eq_childSeq_of_inv _ _ (subtreeInv_at_root A B nd cs hwf),
    ndAt_root_pos A B nd cs]
  have hcast : ((A.length + (flatForest cs).length : ℕ) : ℤ) - 1
      = (A.length : ℤ) + (flatForest cs).length - 1 := by push_cast; omega
  have hset : A ++ (RTree.node nd cs).flat ++ B
      = A ++ flatForest cs ++ ([nd] ++ B) := by
    rw [RTree.flat_def]
    simp [List.append_assoc]
  rw [hcast, ha, hset, childSeq_forest A cs ([nd] ++ B) hlen]

/-- Folding an index-indexed operation over a contiguous index range. -/
def foldIdx (f : List Nd → ℕ → List Nd) (ns : List Nd) (a n : ℕ) : List Nd :=
  (List.range' a n).foldl f ns

theorem foldIdx_zero (f : List Nd → ℕ → List Nd) (ns : List Nd) (a : ℕ) :
    foldIdx f ns a 0 = ns := rfl

theorem foldIdx_one (f : List Nd → ℕ → List Nd) (ns : List Nd) (a : ℕ) :
    foldIdx f ns a 1 = f ns a := rfl

theorem foldIdx_split (f : List Nd → ℕ → List Nd) (ns : List Nd) (a m n : ℕ) :
    foldIdx f ns a (m + n) = foldIdx f (foldIdx f ns a m) (a + m) n := by
  unfold foldIdx
  have h := (List.range'_append a m n 1).symm
  rw [one_mul] at h
  rw [Nat.add_comm m n, h, List.foldl_append]

theorem hmap_root (h : List ℕ → ℕ) (h2 : ℕ → ℚ → ℕ) (mode : HashMode)
    (t : RTree) : (RTree.hmap h h2 mode t).root
      = { t.root with CalculatedHashValue := RTree.rhash h h2 mode t } := by
  obtain ⟨nd, cs⟩ := t
  rw [RTree.hmap]
  rfl

mutual

theorem hmap_flat_length (h : List ℕ → ℕ) (h2 : ℕ → ℚ → ℕ) (mode : HashMode) :
    ∀ t : RTree, (RTree.hmap h h2 mode t).flat.length = t.flat.length
  | .node nd cs => by
    rw [RTree.hmap, RTree.flat_def, RTree.flat_def]
    simp only [List.length_append, List.length_singleton]
    have := hmapF_flat_length h h2 mode cs
    omega

theorem hmapF_flat_length (h : List ℕ → ℕ) (h2 : ℕ → ℚ → ℕ) (mode : HashMode) :
    ∀ cs : List RTree,
      (flatForest (hmapList h h2 mode cs)).length = (flatForest cs).length
  | [] => rfl
  | t :: ts => by
    rw [hmapList, flatForest_cons, flatForest_cons]
    simp only [List.length_append]
    rw [hmap_flat_length h h2 mode t, hmapF_flat_length h h2 mode ts]

end

mutual

theorem wfB_hmap (h : List ℕ → ℕ) (h2 : ℕ → ℚ → ℕ) (mode : HashMode) :
    ∀ t : RTree, t.wfB = true → (RTree.hmap h h2 mode t).wfB = true
  | .node nd cs, hwf => by
    obtain ⟨ha, hl, hcv, hwfc⟩ := (wfB_iff nd cs).mp hwf
    rw [RTree.hmap, wfB_iff]
    refine ⟨?_, ?_, ?_, ?_⟩
    · show nd.Arity = (hmapList h h2 mode cs).length
      rw [hmapList_eq_map, List.length_map]
      exact ha
    · show nd.Length = (flatForest (hmapList h h2 mode cs)).length
      rw [hmapF_flat_length h h2 mode cs]
      exact hl
    · intro hc
      have : cs = [] := hcv hc
      rw [this]
      rfl
    · exact (wfList_iff _).mp
        (wfB_hmapList h h2 mode cs ((wfList_iff cs).mpr hwfc))

theorem wfB_hmapList (h : List ℕ → ℕ) (h2 : ℕ → ℚ → ℕ) (mode : HashMode) :
    ∀ cs : List RTree, wfList cs = true → wfList (hmapList h h2 mode cs) = true
  | [], _ => rfl
  | t :: ts, hwl => by
    rw [wfList, Bool.and_eq_true] at hwl
    rw [hmapList, wfList, Bool.and_eq_true]
    exact ⟨wfB_hmap h h2 mode t hwl.1, wfB_hmapList h h2 mode ts hwl.2⟩

end

theorem hmapList_root_chv (h : List ℕ → ℕ) (h2 : ℕ → ℚ → ℕ) (mode : HashMode)
    (cs : List RTree) :
    (hmapList h h2 mode cs).map (fun c => c.root.CalculatedHashValue)
      = rhashList h h2 mode cs := by
  induction cs with
  | nil => rfl
  | cons t ts ih =>
    rw [hmapList, rhashList, List.map_cons, ih, hmap_root]

theorem set_root_pos (A F B : List Nd) (x y : Nd) :
    (A ++ F ++ [x] ++ B).set (A.length + F.length) y = A ++ F ++ [y] ++ B := by
  have h1 : A ++ F ++ [x] ++ B = (A ++ F) ++ ([x] ++ B) := by
    simp [List.append_assoc]
  have h2 : A ++ F ++ [y] ++ B = (A ++ F) ++ ([y] ++ B) := by
    simp [List.append_assoc]
  rw [h1, h2, List.set_append_right _ _ (by simp), List.length_append]
  have h3 : A.length + F.length - (A.length + F.length) = 0 := by omega
  rw [h3]
  rfl

theorem set_root_pos2 (A F B : List Nd) (x y : Nd) :
    (A ++ F ++ ([x] ++ B)).set (A.length + F.length) y = A ++ F ++ ([y] ++ B) := by
  have h1 : A ++ F ++ ([x] ++ B) = A ++ F ++ [x] ++ B := by
    simp [List.append_assoc]
  have h2 : A ++ F ++ ([y] ++ B) = A ++ F ++ [y] ++ B := by
    simp [List.append_assoc]
  rw [h1, h2, set_root_pos]

theorem idxLe_eq_natLe (ns : List Nd) (a b : ℤ) :
    idxLe ns a b = natLe ((ndAt ns a.toNat).CalculatedHashValue)
      ((ndAt ns b.toNat).CalculatedHashValue) := by
  simp only [idxLe, ndLe, natLe, nodeLtN]
  exact decide_eq_decide.mpr Nat.not_lt

/-- The `wfB` certificate transfers from a node's children to the node whose
children have been replaced by shape-preserving images. -/
theorem wfB_node_hmapList (h : List ℕ → ℕ) (h2 : ℕ → ℚ → ℕ) (mode : HashMode)
    (nd : Nd) (cs : List RTree) (hwf : (RTree.node nd cs).wfB = true) :
    (RTree.node nd (hmapList h h2 mode cs)).wfB = true := by
  obtain ⟨ha, hl, hcv, hwfc⟩ := (wfB_iff nd cs).mp hwf
  rw [wfB_iff]
  refine ⟨?_, ?_, ?_, ?_⟩
  · rw [hmapList_eq_map, List.length_map]
    exact ha
  · rw [hmapF_flat_length h h2 mode cs]
    exact hl
  · intro hc
    rw [hcv hc]
    rfl
  · exact (wfList_iff _).mp
      (wfB_hmapList h h2 mode cs ((wfList_iff cs).mpr hwfc))

/-- One `Tree::Hash` loop iteration at the root position of a subtree whose
descendant block has already been rewritten to the recursive model: the root
receives its structural hash. -/
theorem hashAt_root_step (h : List ℕ → ℕ) (h2 : ℕ → ℚ → ℕ) (mode : HashMode)
    (nd : Nd) (cs : List RTree) (A B : List Nd)
    (hwf : (RTree.node nd cs).wfB = true) :
    hashAt h h2 mode (A ++ (RTree.node nd (hmapList h h2 mode cs)).flat ++ B)
        (A.length + (flatForest (hmapList h h2 mode cs)).length)
      = A ++ (RTree.hmap h h2 mode (RTree.node nd cs)).flat ++ B := by
  obtain ⟨ha, hl, hcv, hwfc⟩ := (wfB_iff nd cs).mp hwf
  have hwl : wfList cs = true := (wfList_iff cs).mpr hwfc
  have hwf1 : (RTree.node nd (hmapList h h2 mode cs)).wfB = true :=
    wfB_node_hmapList h h2 mode nd cs hwf
  have hroot := ndAt_root_pos A B nd (hmapList h h2 mode cs)
  simp only [hashAt]
  rw [hroot]
  have hre : A ++ (RTree.node nd (hmapList h h2 mode cs)).flat ++ B
      = A ++ flatForest (hmapList h h2 mode cs) ++ ([nd] ++ B) := by
    rw [RTree.flat_def]
    simp [List.append_assoc]
  by_cases hleaf : nd.IsLeaf
  · rw [if_pos hleaf, hre, set_root_pos2, RTree.hmap, RTree.flat_def,
      RTree.rhash, if_pos hleaf]
    simp [List.append_assoc]
  · rw [if_neg hleaf]
    have hcoll := collect_forest A B nd (hmapList h h2 mode cs) hwf1
    rw [hcoll]
    have hark : nd.Arity = (rootPositions A.length (hmapList h h2 mode cs)).length := by
      rw [rootPositions_length, hmapList_eq_map, List.length_map]
      exact ha
    have htake : (rootPositions A.length (hmapList h h2 mode cs)).take nd.Arity
        = rootPositions A.length (hmapList h h2 mode cs) := by
      rw [hark]
      exact List.take_length _
    rw [htake, hre]
    have hlen2 : ∀ d ∈ hmapList h h2 mode cs, d.root.Length + 1 = d.flat.length :=
      fun d hd => wfB_root_len d
        ((wfList_iff _).mp (wfB_hmapList h h2 mode cs hwl) d hd)
    have hvals := rootPositions_vals A (hmapList h h2 mode cs) ([nd] ++ B) hlen2
    have hmapped : (rootPositions A.length (hmapList h h2 mode cs)).map
        (fun j => (ndAt (A ++ flatForest (hmapList h h2 mode cs) ++ ([nd] ++ B))
          j.toNat).CalculatedHashValue)
        = rhashList h h2 mode cs := by
      rw [show (fun j : ℤ =>
            (ndAt (A ++ flatForest (hmapList h h2 mode cs) ++ ([nd] ++ B))
              j.toNat).CalculatedHashValue)
          = (fun n : Nd => n.CalculatedHashValue) ∘
            (fun c : ℤ =>
              ndAt (A ++ flatForest (hmapList h h2 mode cs) ++ ([nd] ++ B))
                c.toNat) from rfl,
        ← List.map_map, hvals, List.map_map]
      exact hmapList_root_chv h h2 mode cs
    by_cases hcm : nd.IsCommutative = true
    · rw [if_pos hcm]
      have hms : ((rootPositions A.length (hmapList h h2 mode cs)).mergeSort
            (idxLe (A ++ flatForest (hmapList h h2 mode cs) ++ ([nd] ++ B)))).map
          (fun j => (ndAt (A ++ flatForest (hmapList h h2 mode cs) ++ ([nd] ++ B))
            j.toNat).CalculatedHashValue)
          = (rhashList h h2 mode cs).mergeSort natLe := by
        rw [List.map_mergeSort (fun a _ b _ => idxLe_eq_natLe _ a b), hmapped]
      rw [hms, set_root_pos2, RTree.hmap, RTree.flat_def, RTree.rhash,
        if_neg hleaf, if_pos hcm]
      simp [List.append_assoc]
    · rw [if_neg hcm, hmapped, set_root_pos2, RTree.hmap, RTree.flat_def,
        RTree.rhash, if_neg hleaf, if_neg hcm]
      simp [List.append_assoc]

mutual

/-- Simulation of the `Tree::Hash` pass: processing a well-formed subtree's
index range inside any context rewrites its block to the recursive model's
result. -/
theorem hashSimT (h : List ℕ → ℕ) (h2 : ℕ → ℚ → ℕ) (mode : HashMode) :
    ∀ (t : RTree) (A B : List Nd), t.wfB = true →
      foldIdx (hashAt h h2 mode) (A ++ t.flat ++ B) A.length t.flat.length
        = A ++ (RTree.hmap h h2 mode t).flat ++ B
  | .node nd cs, A, B, hwf => by
    have hwl : wfList cs = true :=
      (wfList_iff cs).mpr ((wfB_iff nd cs).mp hwf).2.2.2
    have hflat : (RTree.node nd cs).flat = flatForest cs ++ [nd] :=
      RTree.flat_def nd cs
    have hlen1 : (RTree.node nd cs).flat.length = (flatForest cs).length + 1 := by
      rw [hflat]
      simp
    have hassoc1 : A ++ (RTree.node nd cs).flat ++ B
        = A ++ flatForest cs ++ ([nd] ++ B) := by
      rw [hflat]
      simp [List.append_assoc]
    rw [hlen1, foldIdx_split, hassoc1,
      hashSimF h h2 mode cs A ([nd] ++ B) hwl, foldIdx_one]
    have hX : A ++ flatForest (hmapList h h2 mode cs) ++ ([nd] ++ B)
        = A ++ (RTree.node nd (hmapList h h2 mode cs)).flat ++ B := by
      rw [RTree.flat_def]
      simp [List.append_assoc]
    have hpos : A.length + (flatForest cs).length
        = A.length + (flatForest (hmapList h h2 mode cs)).length := by
      rw [hmapF_flat_length]
    rw [hX, hpos]
    exact hashAt_root_step h h2 mode nd cs A B hwf

/-- Simulation of the `Tree::Hash` pass over a forest's index range. -/
theorem hashSimF (h : List ℕ → ℕ) (h2 : ℕ → ℚ → ℕ) (mode : HashMode) :
    ∀ (cs : List RTree) (A B : List Nd), wfList cs = true →
      foldIdx (hashAt h h2 mode) (A ++ flatForest cs ++ B) A.length
          (flatForest cs).length
        = A ++ flatForest (hmapList h h2 mode cs) ++ B
  | [], A, B, _ => by
    rw [flatForest_nil, List.length_nil, foldIdx_zero]
    rfl
  | d :: ds, A, B, hwl => by
    rw [wfList, Bool.and_eq_true] at hwl
    have hFd : flatForest (d :: ds) = flatForest ds ++ d.flat :=
      flatForest_cons d ds
    have hlen : (flatForest (d :: ds)).length
        = (flatForest ds).length + d.flat.length := by
      rw [hFd]
      simp
    have hassoc : A ++ flatForest (d :: ds) ++ B
        = A ++ flatForest ds ++ (d.flat ++ B) := by
      rw [hFd]
      simp [List.append_assoc]
    rw [hlen, foldIdx_split, hassoc, hashSimF h h2 mode ds A (d.flat ++ B) hwl.2]
    have hassoc2 : A ++ flatForest (hmapList h h2 mode ds) ++ (d.flat ++ B)
        = (A ++ flatForest (hmapList h h2 mode ds)) ++ d.flat ++ B := by
      simp [List.append_assoc]
    have hpos : A.length + (flatForest ds).length
        = (A ++ flatForest (hmapList h h2 mode ds)).length := by
      rw [List.length_append, hmapF_flat_length]
    rw [hassoc2, hpos,
      hashSimT h h2 mode d (A ++ flatForest (hmapList h h2 mode ds)) B hwl.1]
    rw [hmapList, flatForest_cons]
    simp [List.append_assoc]

end

mutual

theorem smap_flat_length (hx : List ℕ → ℕ) (h2x : ℕ → ℚ → ℕ) (strict : Bool) :
    ∀ t : RTree, t.wfB = true →
      (RTree.smap hx h2x strict t).flat.length = t.flat.length
  | .node nd cs, hwf => by
    obtain ⟨chv, cs2, heq, hperm, -⟩ :=
      smap_children_perm hx h2x strict nd cs hwf
    have hwl : wfList cs = true :=
      (wfList_iff cs).mpr ((wfB_iff nd cs).mp hwf).2.2.2
    rw [heq, RTree.flat_def, RTree.flat_def]
    simp only [List.length_append, List.length_singleton]
    have h1 : (flatForest cs2).length
        = (flatForest (smapList hx h2x strict cs)).length := by
      rw [flatForest_length, flatForest_length]
      exact (hperm.map _).sum_eq
    have h2 := smapF_flat_length hx h2x strict cs hwl
    omega

theorem smapF_flat_length (hx : List ℕ → ℕ) (h2x : ℕ → ℚ → ℕ) (strict : Bool) :
    ∀ cs : List RTree, wfList cs = true →
      (flatForest (smapList hx h2x strict cs)).length = (flatForest cs).length
  | [], _ => rfl
  | t :: ts, hwl => by
    rw [wfList, Bool.and_eq_true] at hwl
    rw [smapList, flatForest_cons, flatForest_cons]
    simp only [List.length_append]
    rw [smap_flat_length hx h2x strict t hwl.1,
      smapF_flat_length hx h2x strict ts hwl.2]

end

mutual

theorem wfB_smap (hx : List ℕ → ℕ) (h2x : ℕ → ℚ → ℕ) (strict : Bool) :
    ∀ t : RTree, t.wfB = true → (RTree.smap hx h2x strict t).wfB = true
  | .node nd cs, hwf => by
    obtain ⟨ha, hl, hcv, hwfc⟩ := (wfB_iff nd cs).mp hwf
    have hwl : wfList cs = true := (wfList_iff cs).mpr hwfc
    obtain ⟨chv, cs2, heq, hperm, -⟩ :=
      smap_children_perm hx h2x strict nd cs hwf
    rw [heq, wfB_iff]
    refine ⟨?_, ?_, ?_, ?_⟩
    · show nd.Arity = cs2.length
      rw [hperm.length_eq, smapList_eq_map, List.length_map]
      exact ha
    · show nd.Length = (flatForest cs2).length
      have h1 : (flatForest cs2).length
          = (flatForest (smapList hx h2x strict cs)).length := by
        rw [flatForest_length, flatForest_length]
        exact (hperm.map _).sum_eq
      have h2 := smapF_flat_length hx h2x strict cs hwl
      omega
    · intro hc
      have hnil : cs = [] := hcv hc
      subst hnil
      exact hperm.eq_nil
    · intro c hc2
      have hcm : c ∈ smapList hx h2x strict cs := hperm.mem_iff.mp hc2
      exact (wfList_iff _).mp (wfB_smapList hx h2x strict cs hwl) c hcm

theorem wfB_smapList (hx : List ℕ → ℕ) (h2x : ℕ → ℚ → ℕ) (strict : Bool) :
    ∀ cs : List RTree, wfList cs = true →
      wfList (smapList hx h2x strict cs) = true
  | [], _ => rfl
  | t :: ts, hwl => by
    rw [wfList, Bool.and_eq_true] at hwl
    rw [smapList, wfList, Bool.and_eq_true]
    exact ⟨wfB_smap hx h2x strict t hwl.1, wfB_smapList hx h2x strict ts hwl.2⟩

end

/-- The `wfB` certificate transfers to a node whose children have been
canonicalized in place (before any reordering). -/
theorem wfB_node_smapList (hx : List ℕ → ℕ) (h2x : ℕ → ℚ → ℕ) (strict : Bool)
    (nd : Nd) (cs : List RTree) (hwf : (RTree.node nd cs).wfB = true) :
    (RTree.node nd (smapList hx h2x strict cs)).wfB = true := by
  obtain ⟨ha, hl, hcv, hwfc⟩ := (wfB_iff nd cs).mp hwf
  have hwl : wfList cs = true := (wfList_iff cs).mpr hwfc
  rw [wfB_iff]
  refine ⟨?_, ?_, ?_, ?_⟩
  · rw [smapList_eq_map, List.length_map]
    exact ha
  · rw [smapF_flat_length hx h2x strict cs hwl]
    exact hl
  · intro hc
    rw [hcv hc]
    rfl
  · exact (wfList_iff _).mp (wfB_smapList hx h2x strict cs hwl)

theorem ctx_take (A F R : List Nd) : (A ++ F ++ R).take A.length = A := by
  rw [List.append_assoc]
  exact List.take_left A (F ++ R)

theorem ctx_drop (A F R : List Nd) :
    (A ++ F ++ R).drop (A.length + F.length) = R := by
  rw [List.append_assoc, ← List.length_append, ← List.append_assoc]
  exact List.drop_left (A ++ F) R

theorem ctx_mid (A F R : List Nd) :
    ((A ++ F ++ R).drop A.length).take F.length = F := by
  rw [List.append_assoc, List.drop_left A (F ++ R)]
  exact List.take_left F R

theorem ndAt_mid_root (A F B : List Nd) (x : Nd) :
    ndAt (A ++ F ++ ([x] ++ B)) (A.length + F.length) = x := by
  rw [show A ++ F ++ ([x] ++ B) = (A ++ F) ++ ([x] ++ B) ++ [] from by
      simp [List.append_assoc],
    show A.length + F.length = (A ++ F).length + 0 from by simp,
    ndAt_block _ _ _ _ (by simp)]
  rfl

theorem flatForest_leaves (X : List RTree) (h : ∀ c ∈ X, c.flat = [c.root]) :
    flatForest X = (X.map RTree.root).reverse := by
  induction X with
  | nil => rfl
  | cons d ds ih =>
    rw [flatForest_cons, ih (fun c hc => h c (by simp [hc])), h d (by simp)]
    simp

/-- Each root position's subtree block, as read back by `Tree::Sort`'s
`copy_n`, is exactly that subtree's flat layout. -/
theorem rootPositions_blocks (A : List Nd) (ds : List RTree) :
    ∀ B : List Nd, (∀ d ∈ ds, d.root.Length + 1 = d.flat.length) →
      (rootPositions A.length ds).map
          (fun j => blockOf (A ++ flatForest ds ++ B) j)
        = ds.map RTree.flat := by
  induction ds with
  | nil => intro B _; rfl
  | cons d ds ih =>
    intro B hlen
    have hpos := flat_length_pos d
    have hFd : flatForest (d :: ds) = flatForest ds ++ d.flat := flatForest_cons d ds
    have hns2 : A ++ flatForest (d :: ds) ++ B
        = A ++ flatForest ds ++ (d.flat ++ B) := by
      rw [hFd]
      simp [List.append_assoc]
    rw [rootPositions, List.map_cons]
    congr 1
    · have hstart : (((A.length : ℤ) + (flatForest (d :: ds)).length - 1)).toNat
          = (A ++ flatForest ds).length + (d.flat.length - 1) := by
        rw [hFd]
        simp only [List.length_append]
        omega
      have hnd : ndAt (A ++ flatForest (d :: ds) ++ B)
          (((A.length : ℤ) + (flatForest (d :: ds)).length - 1)).toNat = d.root := by
        rw [hstart,
          show A ++ flatForest (d :: ds) ++ B
            = (A ++ flatForest ds) ++ d.flat ++ B from by
              rw [hFd]; simp [List.append_assoc],
          ndAt_block _ _ _ _ (by omega)]
        exact flat_last d
      rw [blockOf]
      rw [hnd]
      have hL := hlen d (by simp)
      have hdrop : (((A.length : ℤ) + (flatForest (d :: ds)).length - 1)).toNat
            - d.root.Length
          = (A ++ flatForest ds).length := by
        rw [hstart]
        simp only [List.length_append]
        omega
      rw [hdrop,
        show A ++ flatForest (d :: ds) ++ B
          = (A ++ flatForest ds) ++ (d.flat ++ B) ++ [] from by
            rw [hFd]; simp [List.append_assoc],
        List.append_nil, List.drop_left (A ++ flatForest ds) (d.flat ++ B),
        show d.root.Length + 1 = d.flat.length from hL,
        List.take_left d.flat B]
    · rw [hns2, ih (d.flat ++ B) (fun c hc => hlen c (by simp [hc]))]

theorem leaf_flat (m : Nd) : (RTree.node m []).flat = [m] := rfl

theorem flatForest_reverse (X : List RTree) :
    flatForest X.reverse = (X.map RTree.flat).flatten := by
  unfold flatForest
  rw [flatList_eq_map, List.map_reverse, List.reverse_reverse]

theorem flatten_singletons (l : List Nd) :
    (l.map (fun m => [m])).flatten = l := by
  induction l with
  | nil => rfl
  | cons a l ih => simp [ih]

/-- Every entry of `rootPositions` points at the root of one of the forest's
trees, and its copied block is that tree's flat layout. -/
theorem rootPositions_mem (A : List Nd) (ds : List RTree) :
    ∀ B : List Nd, (∀ d ∈ ds, d.root.Length + 1 = d.flat.length) →
      ∀ a ∈ rootPositions A.length ds, ∃ d ∈ ds,
        ndAt (A ++ flatForest ds ++ B) a.toNat = d.root ∧
        blockOf (A ++ flatForest ds ++ B) a = d.flat := by
  induction ds with
  | nil => intro B _ a ha; cases ha
  | cons d ds ih =>
    intro B hlen a ha
    have hpos := flat_length_pos d
    have hFd : flatForest (d :: ds) = flatForest ds ++ d.flat := flatForest_cons d ds
    have hns2 : A ++ flatForest (d :: ds) ++ B
        = A ++ flatForest ds ++ (d.flat ++ B) := by
      rw [hFd]
      simp [List.append_assoc]
    rw [rootPositions] at ha
    rcases List.mem_cons.mp ha with rfl | hatail
    · refine ⟨d, by simp, ?_, ?_⟩
      · have hstart : (((A.length : ℤ) + (flatForest (d :: ds)).length - 1)).toNat
            = (A ++ flatForest ds).length + (d.flat.length - 1) := by
          rw [hFd]
          simp only [List.length_append]
          omega
        rw [hstart,
          show A ++ flatForest (d :: ds) ++ B
            = (A ++ flatForest ds) ++ d.flat ++ B from by
              rw [hFd]; simp [List.append_assoc],
          ndAt_block _ _ _ _ (by omega)]
        exact flat_last d
      · have hstart : (((A.length : ℤ) + (flatForest (d :: ds)).length - 1)).toNat
            = (A ++ flatForest ds).length + (d.flat.length - 1) := by
          rw [hFd]
          simp only [List.length_append]
          omega
        have hnd : ndAt (A ++ flatForest (d :: ds) ++ B)
            (((A.length : ℤ) + (flatForest (d :: ds)).length - 1)).toNat
              = d.root := by
          rw [hstart,
            show A ++ flatForest (d :: ds) ++ B
              = (A ++ flatForest ds) ++ d.flat ++ B from by
                rw [hFd]; simp [List.append_assoc],
            ndAt_block _ _ _ _ (by omega)]
          exact flat_last d
        rw [blockOf, hnd]
        have hL := hlen d (by simp)
        have hdrop : (((A.length : ℤ) + (flatForest (d :: ds)).length - 1)).toNat
              - d.root.Length
            = (A ++ flatForest ds).length := by
          rw [hstart]
          simp only [List.length_append]
          omega
        rw [hdrop,
          show A ++ flatForest (d :: ds) ++ B
            = (A ++ flatForest ds) ++ (d.flat ++ B) ++ [] from by
              rw [hFd]; simp [List.append_assoc],
          List.append_nil, List.drop_left (A ++ flatForest ds) (d.flat ++ B),
          show d.root.Length + 1 = d.flat.length from hL,
          List.take_left d.flat B]
    · obtain ⟨d2, hd2, hv, hb⟩ :=
        ih (d.flat ++ B) (fun c hc => hlen c (by simp [hc])) a hatail
      rw [hns2]
      exact ⟨d2, by simp [hd2], hv, hb⟩

/-- Comparator on subtree blocks: the node comparator applied to the block
roots (a block's last node). -/
def lastLe (x y : List Nd) : Bool :=
  ndLe (ndAt x (x.length - 1)) (ndAt y (y.length - 1))

/-- One `Tree::Sort` loop iteration at the root position of a subtree whose
descendant block has already been canonicalized: the loop body reproduces the
recursive model's canonicalization step at the root. -/
theorem sortAt_root_step (hx : List ℕ → ℕ) (h2x : ℕ → ℚ → ℕ) (strict : Bool)
    (nd : Nd) (cs : List RTree) (A B : List Nd)
    (hwf : (RTree.node nd cs).wfB = true) :
    sortAt hx h2x strict
        (A ++ flatForest (smapList hx h2x strict cs) ++ ([nd] ++ B))
        (A.length + (flatForest (smapList hx h2x strict cs)).length)
      = A ++ (RTree.smap hx h2x strict (RTree.node nd cs)).flat ++ B := by
  obtain ⟨ha, hl, hcv, hwfc⟩ := (wfB_iff nd cs).mp hwf
  have hwl : wfList cs = true := (wfList_iff cs).mpr hwfc
  have hnd := ndAt_mid_root A (flatForest (smapList hx h2x strict cs)) B nd
  simp only [sortAt]
  rw [hnd]
  by_cases hc : nd.IsConstant = true
  · rw [if_pos hc]
    have hnil : cs = [] := hcv (Or.inl hc)
    subst hnil
    rw [RTree.smap, if_pos hc, RTree.flat_def]
    simp [smapList, List.append_assoc]
  · rw [if_neg hc]
    by_cases hv : nd.IsVariable = true
    · rw [if_pos hv, set_root_pos2]
      have hnil : cs = [] := hcv (Or.inr hv)
      subst hnil
      rw [RTree.smap, if_neg hc, if_pos hv, RTree.flat_def]
      simp [smapList, List.append_assoc]
    · rw [if_neg hv]
      have hwf1 : (RTree.node nd (smapList hx h2x strict cs)).wfB = true :=
        wfB_node_smapList hx h2x strict nd cs hwf
      have hFlen : (flatForest (smapList hx h2x strict cs)).length
          = (flatForest cs).length := smapF_flat_length hx h2x strict cs hwl
      have hsz : nd.Length = (flatForest (smapList hx h2x strict cs)).length := by
        rw [hFlen]
        exact hl
      have hposA : A.length + (flatForest (smapList hx h2x strict cs)).length
          - nd.Length = A.length := by omega
      have htakeA : (A ++ flatForest (smapList hx h2x strict cs) ++ ([nd] ++ B)).take
          (A.length + (flatForest (smapList hx h2x strict cs)).length - nd.Length)
          = A := by
        rw [hposA]
        exact ctx_take A (flatForest (smapList hx h2x strict cs)) ([nd] ++ B)
      have hseg : (((A ++ flatForest (smapList hx h2x strict cs) ++ ([nd] ++ B)).drop
          (A.length + (flatForest (smapList hx h2x strict cs)).length - nd.Length)).take
            nd.Length)
          = flatForest (smapList hx h2x strict cs) := by
        rw [hposA, hsz]
        exact ctx_mid A (flatForest (smapList hx h2x strict cs)) ([nd] ++ B)
      have hdropI : (A ++ flatForest (smapList hx h2x strict cs) ++ ([nd] ++ B)).drop
          (A.length + (flatForest (smapList hx h2x strict cs)).length)
          = [nd] ++ B :=
        ctx_drop A (flatForest (smapList hx h2x strict cs)) ([nd] ++ B)
      have hlen2 : ∀ d ∈ smapList hx h2x strict cs,
          d.root.Length + 1 = d.flat.length :=
        fun d hd => wfB_root_len d
          ((wfList_iff _).mp (wfB_smapList hx h2x strict cs hwl) d hd)
      by_cases hcm : nd.IsCommutative = true
      · by_cases hal : nd.Arity = nd.Length
        · -- commutative operator over leaf children: the node range is sorted
          rw [if_pos hcm, if_pos hal, htakeA, hseg, hdropI]
          have hone : ∀ c ∈ cs, c.flat.length = 1 := by
            have hsum : (cs.map (fun c => c.flat.length)).sum
                = (cs.map (fun c => c.flat.length)).length := by
              rw [← flatForest_length, ← hl]
              simp [← ha, hal]
            have hpos1 : ∀ x ∈ cs.map (fun c => c.flat.length), 1 ≤ x := by
              intro x hxm
              obtain ⟨c, -, rfl⟩ := List.mem_map.mp hxm
              exact flat_length_pos c
            intro c hcmem
            exact all_one_of_sum_eq_length _ hpos1 hsum _
              (List.mem_map.mpr ⟨c, hcmem, rfl⟩)
          have hflats : ∀ c ∈ smapList hx h2x strict cs, c.flat = [c.root] := by
            rw [smapList_eq_map]
            intro c hcmem
            obtain ⟨c0, hc0, rfl⟩ := List.mem_map.mp hcmem
            obtain ⟨m, rfl⟩ := leaf_shape_of_flat_length_one c0 (hone c0 hc0)
            obtain ⟨m2, hm2⟩ := smap_leaf_shape hx h2x strict m
            rw [hm2]
            rfl
          have hC2 : flatForest (((((smapList hx h2x strict cs).reverse.map
                RTree.root).mergeSort ndLe).map (fun m => RTree.node m [])).reverse)
              = (flatForest (smapList hx h2x strict cs)).mergeSort ndLe := by
            rw [flatForest_reverse, List.map_map]
            rw [show RTree.flat ∘ (fun m => RTree.node m []) = fun m => [m] from
              funext fun m => leaf_flat m]
            rw [flatten_singletons, List.map_reverse,
              ← flatForest_leaves _ hflats]
          have hmslen : ((flatForest (smapList hx h2x strict cs)).mergeSort
              ndLe).length = (flatForest (smapList hx h2x strict cs)).length :=
            List.length_mergeSort _
          have hseg2 : (((A ++ (flatForest (smapList hx h2x strict cs)).mergeSort ndLe
              ++ ([nd] ++ B)).drop
                (A.length + (flatForest (smapList hx h2x strict cs)).length
                  - nd.Length)).take nd.Length)
              = (flatForest (smapList hx h2x strict cs)).mergeSort ndLe := by
            rw [hposA, hsz, ← hmslen]
            exact ctx_mid A _ ([nd] ++ B)
          have hndr : ndAt (A ++ (flatForest (smapList hx h2x strict cs)).mergeSort
                ndLe ++ ([nd] ++ B))
              (A.length + (flatForest (smapList hx h2x strict cs)).length) = nd := by
            rw [show A.length + (flatForest (smapList hx h2x strict cs)).length
                = A.length + ((flatForest (smapList hx h2x strict cs)).mergeSort
                  ndLe).length from by rw [hmslen]]
            exact ndAt_mid_root A _ B nd
          rw [hseg2, hndr,
            show A.length + (flatForest (smapList hx h2x strict cs)).length
              = A.length + ((flatForest (smapList hx h2x strict cs)).mergeSort
                ndLe).length from by rw [hmslen],
            set_root_pos2]
          simp only [RTree.smap]
          rw [if_neg hc, if_neg hv, if_pos hcm, if_pos hal, RTree.flat_def, hC2]
          simp [List.append_assoc]
        · -- commutative operator with non-leaf children: blocks are reordered
          rw [if_pos hcm, if_neg hal]
          have hXnode : A ++ (RTree.node nd (smapList hx h2x strict cs)).flat ++ B
              = A ++ flatForest (smapList hx h2x strict cs) ++ ([nd] ++ B) := by
            rw [RTree.flat_def]
            simp [List.append_assoc]
          have hcoll := collect_forest A B nd (smapList hx h2x strict cs) hwf1
          rw [hXnode] at hcoll
          rw [hcoll, htakeA, hdropI]
          have hblocks := rootPositions_blocks A (smapList hx h2x strict cs)
            ([nd] ++ B) hlen2
          have hmem := rootPositions_mem A (smapList hx h2x strict cs)
            ([nd] ++ B) hlen2
          have hcomp : ∀ a ∈ rootPositions A.length (smapList hx h2x strict cs),
              ∀ b ∈ rootPositions A.length (smapList hx h2x strict cs),
              idxLe (A ++ flatForest (smapList hx h2x strict cs) ++ ([nd] ++ B)) a b
                = lastLe
                  (blockOf (A ++ flatForest (smapList hx h2x strict cs)
                    ++ ([nd] ++ B)) a)
                  (blockOf (A ++ flatForest (smapList hx h2x strict cs)
                    ++ ([nd] ++ B)) b) := by
            intro a hA2 b hB2
            obtain ⟨da, hda, hva, hba⟩ := hmem a hA2
            obtain ⟨db, hdb, hvb, hbb⟩ := hmem b hB2
            show ndLe (ndAt _ a.toNat) (ndAt _ b.toNat) = _
            rw [lastLe, hva, hvb, hba, hbb, flat_last, flat_last]
          have hms : ((rootPositions A.length (smapList hx h2x strict cs)).mergeSort
                (idxLe (A ++ flatForest (smapList hx h2x strict cs)
                  ++ ([nd] ++ B)))).map
              (fun j => blockOf (A ++ flatForest (smapList hx h2x strict cs)
                ++ ([nd] ++ B)) j)
              = ((smapList hx h2x strict cs).map RTree.flat).mergeSort
                lastLe := by
            rw [List.map_mergeSort hcomp, hblocks]
          have htree : ((smapList hx h2x strict cs).mergeSort treeLe).map RTree.flat
              = ((smapList hx h2x strict cs).map RTree.flat).mergeSort
                lastLe := by
            rw [List.map_mergeSort]
            intro a _ b _
            show treeLe a b = lastLe a.flat b.flat
            rw [lastLe, show ndAt a.flat (a.flat.length - 1) = a.root from
                flat_last a,
              show ndAt b.flat (b.flat.length - 1) = b.root from flat_last b]
            rfl
          have hsegC : ((rootPositions A.length (smapList hx h2x strict cs)).mergeSort
                (idxLe (A ++ flatForest (smapList hx h2x strict cs)
                  ++ ([nd] ++ B))) |>.map
              (fun j => blockOf (A ++ flatForest (smapList hx h2x strict cs)
                ++ ([nd] ++ B)) j)).flatten
              = flatForest (((smapList hx h2x strict cs).mergeSort treeLe).reverse) := by
            rw [hms, flatForest_reverse, htree]
          rw [hsegC]
          have hperm2 : ((((smapList hx h2x strict cs).mergeSort
              treeLe).reverse)).Perm (smapList hx h2x strict cs) :=
            (List.reverse_perm _).trans (List.mergeSort_perm _ _)
          have hMlen : (flatForest ((((smapList hx h2x strict cs).mergeSort
              treeLe).reverse))).length
              = (flatForest (smapList hx h2x strict cs)).length := by
            rw [flatForest_length, flatForest_length]
            exact (hperm2.map _).sum_eq
          have hseg2 : (((A ++ flatForest ((((smapList hx h2x strict cs).mergeSort
              treeLe).reverse)) ++ ([nd] ++ B)).drop
                (A.length + (flatForest (smapList hx h2x strict cs)).length
                  - nd.Length)).take nd.Length)
              = flatForest ((((smapList hx h2x strict cs).mergeSort
                treeLe).reverse)) := by
            rw [hposA, hsz, ← hMlen]
            exact ctx_mid A _ ([nd] ++ B)
          have hndr : ndAt (A ++ flatForest ((((smapList hx h2x strict cs).mergeSort
                treeLe).reverse)) ++ ([nd] ++ B))
              (A.length + (flatForest (smapList hx h2x strict cs)).length) = nd := by
            rw [show A.length + (flatForest (smapList hx h2x strict cs)).length
                = A.length + (flatForest ((((smapList hx h2x strict cs).mergeSort
                  treeLe).reverse))).length from by rw [hMlen]]
            exact ndAt_mid_root A _ B nd
          rw [hseg2, hndr,
            show A.length + (flatForest (smapList hx h2x strict cs)).length
              = A.length + (flatForest ((((smapList hx h2x strict cs).mergeSort
                treeLe).reverse))).length from by rw [hMlen],
            set_root_pos2]
          simp only [RTree.smap]
          rw [if_neg hc, if_neg hv, if_pos hcm, if_neg hal, RTree.flat_def]
          simp [List.append_assoc]
      · -- non-commutative operator: the range is hashed in place
        rw [if_neg hcm, hseg, hnd, set_root_pos2]
        simp only [RTree.smap]
        rw [if_neg hc, if_neg hv, if_neg hcm, RTree.flat_def]
        simp [List.append_assoc]

mutual

/-- Simulation of the `Tree::Sort` canonicalization loop: processing a
well-formed subtree's index range inside any context rewrites its block to
the recursive model's result. -/
theorem sortSimT (hx : List ℕ → ℕ) (h2x : ℕ → ℚ → ℕ) (strict : Bool) :
    ∀ (t : RTree) (A B : List Nd), t.wfB = true →
      foldIdx (sortAt hx h2x strict) (A ++ t.flat ++ B) A.length t.flat.length
        = A ++ (RTree.smap hx h2x strict t).flat ++ B
  | .node nd cs, A, B, hwf => by
    have hwl : wfList cs = true :=
      (wfList_iff cs).mpr ((wfB_iff nd cs).mp hwf).2.2.2
    have hflat : (RTree.node nd cs).flat = flatForest cs ++ [nd] :=
      RTree.flat_def nd cs
    have hlen1 : (RTree.node nd cs).flat.length = (flatForest cs).length + 1 := by
      rw [hflat]
      simp
    have hassoc1 : A ++ (RTree.node nd cs).flat ++ B
        = A ++ flatForest cs ++ ([nd] ++ B) := by
      rw [hflat]
      simp [List.append_assoc]
    rw [hlen1, foldIdx_split, hassoc1,
      sortSimF hx h2x strict cs A ([nd] ++ B) hwl, foldIdx_one,
      show A.length + (flatForest cs).length
        = A.length + (flatForest (smapList hx h2x strict cs)).length from by
          rw [smapF_flat_length hx h2x strict cs hwl]]
    exact sortAt_root_step hx h2x strict nd cs A B hwf

/-- Simulation of the `Tree::Sort` canonicalization loop over a forest's
index range. -/
theorem sortSimF (hx : List ℕ → ℕ) (h2x : ℕ → ℚ → ℕ) (strict : Bool) :
    ∀ (cs : List RTree) (A B : List Nd), wfList cs = true →
      foldIdx (sortAt hx h2x strict) (A ++ flatForest cs ++ B) A.length
          (flatForest cs).length
        = A ++ flatForest (smapList hx h2x strict cs) ++ B
  | [], A, B, _ => by
    rw [flatForest_nil, List.length_nil, foldIdx_zero]
    rfl
  | d :: ds, A, B, hwl => by
    rw [wfList, Bool.and_eq_true] at hwl
    have hFd : flatForest (d :: ds) = flatForest ds ++ d.flat :=
      flatForest_cons d ds
    have hlen : (flatForest (d :: ds)).length
        = (flatForest ds).length + d.flat.length := by
      rw [hFd]
      simp
    have hassoc : A ++ flatForest (d :: ds) ++ B
        = A ++ flatForest ds ++ (d.flat ++ B) := by
      rw [hFd]
      simp [List.append_assoc]
    rw [hlen, foldIdx_split, hassoc,
      sortSimF hx h2x strict ds A (d.flat ++ B) hwl.2]
    have hassoc2 : A ++ flatForest (smapList hx h2x strict ds) ++ (d.flat ++ B)
        = (A ++ flatForest (smapList hx h2x strict ds)) ++ d.flat ++ B := by
      simp [List.append_assoc]
    have hpos : A.length + (flatForest ds).length
        = (A ++ flatForest (smapList hx h2x strict ds)).length := by
      rw [List.length_append, smapF_flat_length hx h2x strict ds hwl.2]
    rw [hassoc2, hpos,
      sortSimT hx h2x strict d (A ++ flatForest (smapList hx h2x strict ds)) B
        hwl.1]
    rw [smapList, flatForest_cons]
    simp [List.append_assoc]

end

/-- The hash-relevant projection of a node: everything except the derived
navigation fields `Depth` and `Parent`, which `Tree::Hash` and the subtree
iterator never read. -/
def ndCore (n : Nd) : Nd := { n with Depth := 0, Parent := 0 }

theorem ndCore_setCHV (m : Nd) (v : ℕ) :
    ndCore { m with CalculatedHashValue := v }
      = { ndCore m with CalculatedHashValue := v } := rfl

theorem ndAt_core {ns1 ns2 : List Nd} (h : ns1.map ndCore = ns2.map ndCore)
    (i : ℕ) : ndCore (ndAt ns1 i) = ndCore (ndAt ns2 i) := by
  have h1 : (ns1.map ndCore).getD i (ndCore default)
      = (ns2.map ndCore).getD i (ndCore default) := by rw [h]
  rw [List.getD_map, List.getD_map] at h1
  exact h1

theorem core_Length {ns1 ns2 : List Nd} (h : ns1.map ndCore = ns2.map ndCore)
    (i : ℕ) : (ndAt ns1 i).Length = (ndAt ns2 i).Length := by
  have h1 := congrArg Nd.Length (ndAt_core h i)
  exact h1

theorem core_Arity {ns1 ns2 : List Nd} (h : ns1.map ndCore = ns2.map ndCore)
    (i : ℕ) : (ndAt ns1 i).Arity = (ndAt ns2 i).Arity := by
  have h1 := congrArg Nd.Arity (ndAt_core h i)
  exact h1

theorem core_CHV {ns1 ns2 : List Nd} (h : ns1.map ndCore = ns2.map ndCore)
    (i : ℕ) : (ndAt ns1 i).CalculatedHashValue
      = (ndAt ns2 i).CalculatedHashValue := by
  have h1 := congrArg Nd.CalculatedHashValue (ndAt_core h i)
  exact h1

theorem core_length_eq {ns1 ns2 : List Nd} (h : ns1.map ndCore = ns2.map ndCore) :
    ns1.length = ns2.length := by
  have := congrArg List.length h
  simpa using this

theorem childSeq_core {ns1 ns2 : List Nd} (h : ns1.map ndCore = ns2.map ndCore) :
    ∀ (k : ℕ) (idx : ℤ), childSeq ns1 k idx = childSeq ns2 k idx
  | 0, _ => rfl
  | k + 1, idx => by
    rw [childSeq, childSeq, core_Length h idx.toNat,
      childSeq_core h k (idx - ((ndAt ns2 idx.toNat).Length + 1))]

theorem collectChildren_core_aux {ns1 ns2 : List Nd}
    (h : ns1.map ndCore = ns2.map ndCore) (parent : ℕ) :
    ∀ (n : ℕ) (idx : ℤ), (idx + 1).toNat = n →
      SubtreeIterator.collectChildren ns1 parent idx
        = SubtreeIterator.collectChildren ns2 parent idx := by
  intro n
  induction n using Nat.strong_induction_on with
  | _ n ih =>
    intro idx hn
    have hnx : SubtreeIterator.hasNext ns1 parent idx
        ↔ SubtreeIterator.hasNext ns2 parent idx := by
      unfold SubtreeIterator.hasNext
      rw [core_Length h parent]
    by_cases hx : SubtreeIterator.hasNext ns1 parent idx
    · rw [SubtreeIterator.collectChildren_pos ns1 parent idx hx,
        SubtreeIterator.collectChildren_pos ns2 parent idx (hnx.mp hx),
        core_Length h idx.toNat]
      obtain ⟨h0, -, -, -⟩ := hx
      rw [ih ((idx - ((ndAt ns2 idx.toNat).Length + 1)) + 1).toNat
        (by omega) _ rfl]
    · rw [SubtreeIterator.collectChildren_neg ns1 parent idx hx,
        SubtreeIterator.collectChildren_neg ns2 parent idx
          (fun hx2 => hx (hnx.mpr hx2))]

theorem collectChildren_core {ns1 ns2 : List Nd}
    (h : ns1.map ndCore = ns2.map ndCore) (parent : ℕ) (idx : ℤ) :
    SubtreeIterator.collectChildren ns1 parent idx
      = SubtreeIterator.collectChildren ns2 parent idx :=
  collectChildren_core_aux h parent _ idx rfl

theorem idxLe_core {ns1 ns2 : List Nd} (h : ns1.map ndCore = ns2.map ndCore) :
    idxLe ns1 = idxLe ns2 := by
  funext a b
  unfold idxLe ndLe nodeLtN
  have e1 := core_CHV h a.toNat
  have e2 := core_CHV h b.toNat
  exact decide_eq_decide.mpr (by rw [e1, e2])

theorem hashLeaf_core (h2 : ℕ → ℚ → ℕ) (mode : HashMode) {n1 n2 : Nd}
    (hh : ndCore n1 = ndCore n2) : hashLeaf h2 mode n1 = hashLeaf h2 mode n2 := by
  have hH : n1.HashValue = n2.HashValue := by
    have h1 := congrArg Nd.HashValue hh
    exact h1
  have hV : n1.Value = n2.Value := by
    have h1 := congrArg Nd.Value hh
    exact h1
  cases mode
  · show h2 n1.HashValue n1.Value = h2 n2.HashValue n2.Value
    rw [hH, hV]
  · show n1.HashValue = n2.HashValue
    exact hH

theorem hashAt_core (h : List ℕ → ℕ) (h2 : ℕ → ℚ → ℕ) (mode : HashMode)
    {ns1 ns2 : List Nd} (hc : ns1.map ndCore = ns2.map ndCore) (i : ℕ) :
    (hashAt h h2 mode ns1 i).map ndCore = (hashAt h h2 mode ns2 i).map ndCore := by
  have hcore := ndAt_core hc i
  have hHV : (ndAt ns1 i).HashValue = (ndAt ns2 i).HashValue := by
    have h1 := congrArg Nd.HashValue hcore
    exact h1
  simp only [hashAt]
  have hleaf : (ndAt ns1 i).IsLeaf ↔ (ndAt ns2 i).IsLeaf := by
    unfold Nd.IsLeaf
    rw [core_Arity hc i]
  by_cases hl : (ndAt ns1 i).IsLeaf
  · rw [if_pos hl, if_pos (hleaf.mp hl), List.map_set, List.map_set, hc]
    exact congrArg (fun a => (List.map ndCore ns2).set i a)
      (by rw [ndCore_setCHV, ndCore_setCHV, hcore, hashLeaf_core h2 mode hcore]
          rfl)
  · have hcm2 : (ndAt ns1 i).IsCommutative = (ndAt ns2 i).IsCommutative := by
      have h1 := congrArg Nd.IsCommutative hcore
      exact h1
    have hh : ((if (ndAt ns1 i).IsCommutative
          then ((SubtreeIterator.collectChildren ns1 i ((i : ℤ) - 1)).take
            (ndAt ns1 i).Arity).mergeSort (idxLe ns1)
          else (SubtreeIterator.collectChildren ns1 i ((i : ℤ) - 1)).take
            (ndAt ns1 i).Arity).map
          (fun j => (ndAt ns1 j.toNat).CalculatedHashValue))
        ++ [(ndAt ns1 i).HashValue]
        = ((if (ndAt ns2 i).IsCommutative
          then ((SubtreeIterator.collectChildren ns2 i ((i : ℤ) - 1)).take
            (ndAt ns2 i).Arity).mergeSort (idxLe ns2)
          else (SubtreeIterator.collectChildren ns2 i ((i : ℤ) - 1)).take
            (ndAt ns2 i).Arity).map
          (fun j => (ndAt ns2 j.toNat).CalculatedHashValue))
        ++ [(ndAt ns2 i).HashValue] := by
      rw [collectChildren_core hc i ((i : ℤ) - 1), core_Arity hc i,
        idxLe_core hc, hcm2, hHV,
        show (fun j : ℤ => (ndAt ns1 j.toNat).CalculatedHashValue)
          = (fun j : ℤ => (ndAt ns2 j.toNat).CalculatedHashValue) from
            funext fun j => core_CHV hc j.toNat]
    rw [if_neg hl, if_neg (fun hx => hl (hleaf.mpr hx)), List.map_set,
      List.map_set, hc]
    exact congrArg (fun a => (List.map ndCore ns2).set i a)
      (by rw [ndCore_setCHV, ndCore_setCHV, hcore, hh]
          rfl)

theorem foldl_hashAt_core (h : List ℕ → ℕ) (h2 : ℕ → ℚ → ℕ) (mode : HashMode)
    (L : List ℕ) : ∀ {ns1 ns2 : List Nd}, ns1.map ndCore = ns2.map ndCore →
      (L.foldl (hashAt h h2 mode) ns1).map ndCore
        = (L.foldl (hashAt h h2 mode) ns2).map ndCore := by
  induction L with
  | nil => intro ns1 ns2 hc; exact hc
  | cons a L ih =>
    intro ns1 ns2 hc
    exact ih (hashAt_core h h2 mode hc a)

/-- `Tree::Hash` ignores the `Depth` and `Parent` fields: its result, up to
those fields, depends only on the rest. -/
theorem hashPass_core (h : List ℕ → ℕ) (h2 : ℕ → ℚ → ℕ) (mode : HashMode)
    {ns1 ns2 : List Nd} (hc : ns1.map ndCore = ns2.map ndCore) :
    (hashPass h h2 mode ns1).map ndCore = (hashPass h h2 mode ns2).map ndCore := by
  unfold hashPass
  rw [core_length_eq hc]
  exact foldl_hashAt_core h h2 mode _ hc

theorem chvMap_of_core {ns1 ns2 : List Nd} (hc : ns1.map ndCore = ns2.map ndCore) :
    ns1.map (fun n => n.CalculatedHashValue)
      = ns2.map (fun n => n.CalculatedHashValue) := by
  have h1 : ∀ ns : List Nd, ns.map (fun n => n.CalculatedHashValue)
      = (ns.map ndCore).map (fun n => n.CalculatedHashValue) := by
    intro ns
    rw [List.map_map]
    rfl
  rw [h1 ns1, h1 ns2, hc]

theorem HashValueT_of_core {ns1 ns2 : List Nd}
    (hc : ns1.map ndCore = ns2.map ndCore) : HashValueT ns1 = HashValueT ns2 := by
  have hE : ∀ ns : List Nd, ns.isEmpty = decide (ns.length = 0) := by
    intro ns
    cases ns <;> simp
  unfold HashValueT
  rw [hE ns1, hE ns2, core_length_eq hc, core_CHV hc (ns2.length - 1)]

theorem map_set_core (ns : List Nd) :
    ∀ (i : ℕ) (y : Nd), ndCore y = ndCore (ndAt ns i) →
      (ns.set i y).map ndCore = ns.map ndCore := by
  induction ns with
  | nil => intro i y _; rfl
  | cons a l ih =>
    intro i y hy
    cases i with
    | zero =>
      have hy0 : ndCore y = ndCore a := hy
      simp only [List.set_cons_zero, List.map_cons, hy0]
    | succ i =>
      simp only [List.set_cons_succ, List.map_cons]
      rw [ih i y hy]

theorem ndAt_set_ne (v : Nd) :
    ∀ (ns : List Nd) (i j : ℕ), j ≠ i → ndAt (ns.set i v) j = ndAt ns j := by
  intro ns
  induction ns with
  | nil => intro i j _; rfl
  | cons a l ih =>
    intro i j hne
    cases i with
    | zero =>
      cases j with
      | zero => exact absurd rfl hne
      | succ j => rfl
    | succ i =>
      cases j with
      | zero => rfl
      | succ j => exact ih i j (fun h => hne (by rw [h]))

theorem ndAt_set_self (v : Nd) :
    ∀ (ns : List Nd) (i : ℕ), i < ns.length → ndAt (ns.set i v) i = v := by
  intro ns
  induction ns with
  | nil => intro i hi; cases hi
  | cons a l ih =>
    intro i hi
    cases i with
    | zero => rfl
    | succ i => exact ih i (by simpa using hi)

theorem subtreeInv_core {ns1 ns2 : List Nd} (hc : ns1.map ndCore = ns2.map ndCore)
    (i : ℕ) : SubtreeInvAt ns1 i ↔ SubtreeInvAt ns2 i := by
  unfold SubtreeInvAt
  rw [core_Length hc i, core_Arity hc i, childSeq_core hc,
    show (fun c : ℤ => (ndAt ns1 c.toNat).Length)
      = (fun c : ℤ => (ndAt ns2 c.toNat).Length) from
      funext fun c => core_Length hc c.toNat]

theorem childSeq_congr_lt {ns1 ns2 : List Nd} (m : ℕ) (hm : 0 < m)
    (h : ∀ j < m, (ndAt ns1 j).Length = (ndAt ns2 j).Length) :
    ∀ (k : ℕ) (idx : ℤ), idx < (m : ℤ) →
      childSeq ns1 k idx = childSeq ns2 k idx ∧
      ((childSeq ns1 k idx).map (fun c => (ndAt ns1 c.toNat).Length)).sum
        = ((childSeq ns2 k idx).map (fun c => (ndAt ns2 c.toNat).Length)).sum
  | 0, idx, _ => ⟨rfl, rfl⟩
  | k + 1, idx, hidx => by
    have htn : idx.toNat < m := by omega
    have hL := h idx.toNat htn
    have hrec := childSeq_congr_lt m hm h k
      (idx - ((ndAt ns2 idx.toNat).Length + 1)) (by omega)
    constructor
    · rw [childSeq, childSeq, hL, hrec.1]
    · rw [childSeq, childSeq]
      simp only [List.map_cons, List.sum_cons]
      rw [hL, hrec.2]

namespace Tree

theorem updChildLoop_pos (ns : List Nd) (i : ℕ) (len depth : ℕ) (idx : ℤ)
    (h : 0 ≤ idx ∧ idx < (i : ℤ) ∧ len ≤ i ∧ (i : ℤ) - len ≤ idx) :
    updChildLoop ns i len depth idx
      = updChildLoop
          (ns.set idx.toNat { ndAt ns idx.toNat with Parent := i }) i
          (len + (ndAt ns idx.toNat).Length)
          (max depth (ndAt ns idx.toNat).Depth)
          (idx - ((ndAt ns idx.toNat).Length + 1)) := by
  rw [updChildLoop]
  simp [h]

theorem updChildLoop_neg (ns : List Nd) (i : ℕ) (len depth : ℕ) (idx : ℤ)
    (h : ¬(0 ≤ idx ∧ idx < (i : ℤ) ∧ len ≤ i ∧ (i : ℤ) - len ≤ idx)) :
    updChildLoop ns i len depth idx = (ns, len, depth) := by
  rw [updChildLoop]
  rw [dif_neg h]

/-- The evolving-length child loop of `UpdateNodes` only writes `Parent`
fields, and accumulates exactly the lengths of the `k` children reached by
the iterator stride. -/
theorem updChildLoop_core (i : ℕ) :
    ∀ (k : ℕ) (ns : List Nd) (idx : ℤ) (len depth : ℕ),
      idx + len = (i : ℤ) - 1 + k → k ≤ len →
      len + ((childSeq ns k idx).map (fun c => (ndAt ns c.toNat).Length)).sum ≤ i →
      (updChildLoop ns i len depth idx).1.map ndCore = ns.map ndCore ∧
      (updChildLoop ns i len depth idx).2.1
        = len + ((childSeq ns k idx).map (fun c => (ndAt ns c.toNat).Length)).sum
  | 0, ns, idx, len, depth, hbal, hk, hsum => by
    have hg : ¬(0 ≤ idx ∧ idx < (i : ℤ) ∧ len ≤ i ∧ (i : ℤ) - len ≤ idx) := by
      rintro ⟨h0, h1, h2, h3⟩
      omega
    rw [updChildLoop_neg ns i len depth idx hg]
    exact ⟨rfl, by simp [childSeq]⟩
  | k + 1, ns, idx, len, depth, hbal, hk, hsum => by
    have hsum' := hsum
    rw [childSeq] at hsum'
    simp only [List.map_cons, List.sum_cons] at hsum'
    have hg : 0 ≤ idx ∧ idx < (i : ℤ) ∧ len ≤ i ∧ (i : ℤ) - len ≤ idx := by
      refine ⟨by omega, by omega, by omega, by omega⟩
    rw [updChildLoop_pos ns i len depth idx hg]
    have hcore1 : (ns.set idx.toNat
        { ndAt ns idx.toNat with Parent := i }).map ndCore = ns.map ndCore :=
      map_set_core ns idx.toNat _ rfl
    have hcs := childSeq_core hcore1 k (idx - ((ndAt ns idx.toNat).Length + 1))
    have hmapf : (fun c : ℤ => (ndAt (ns.set idx.toNat
        { ndAt ns idx.toNat with Parent := i }) c.toNat).Length)
        = (fun c : ℤ => (ndAt ns c.toNat).Length) :=
      funext fun c => core_Length hcore1 c.toNat
    have hrec := updChildLoop_core i k
      (ns.set idx.toNat { ndAt ns idx.toNat with Parent := i })
      (idx - ((ndAt ns idx.toNat).Length + 1))
      (len + (ndAt ns idx.toNat).Length)
      (max depth (ndAt ns idx.toNat).Depth)
      (by omega) (by omega)
      (by rw [hcs, hmapf]; omega)
    refine ⟨hrec.1.trans hcore1, ?_⟩
    rw [hrec.2, hcs, hmapf, childSeq]
    simp only [List.map_cons, List.sum_cons]
    omega

theorem ndCore_setLenDepth (m : Nd) (v d : ℕ) :
    ndCore { m with Length := v, Depth := d }
      = { ndCore m with Length := v } := rfl

/-- One `UpdateNodes` iteration at an index satisfying the subtree-range
invariant recomputes exactly the fields it already had, up to `Depth` and
`Parent`. -/
theorem updateAt_core (ns : List Nd) (i : ℕ) (hi : i < ns.length)
    (hinv : SubtreeInvAt ns i) :
    (updateAt ns i).map ndCore = ns.map ndCore := by
  obtain ⟨hLi, hlen⟩ := hinv
  simp only [updateAt]
  by_cases hlf : (ndAt ns i).IsLeaf
  · rw [if_pos hlf]
    have hA : (ndAt ns i).Arity = 0 := by simpa [Nd.IsLeaf] using hlf
    have hL : (ndAt ns i).Length = 0 := by
      rw [hlen, hA]
      simp [childSeq]
    apply map_set_core
    simp [ndCore, hA, hL]
  · rw [if_neg hlf]
    have hA1 : 1 ≤ (ndAt ns i).Arity := by
      by_contra hx
      exact hlf (by simp [Nd.IsLeaf]; omega)
    have hi1 : 1 ≤ i := by
      rcases Nat.eq_zero_or_pos i with h0 | h1
      · subst h0
        have hsum0 : (ndAt ns 0).Length = 0 := by omega
        rw [hsum0] at hlen
        have : ((childSeq ns (ndAt ns 0).Arity ((0 : ℤ) - 1)).map
            (fun c => (ndAt ns c.toNat).Length)).sum = 0 := by omega
        omega
      · exact h1
    have hcore0 : ∀ j < i, (ndAt (ns.set i { ndAt ns i with
        Length := (ndAt ns i).Arity, Depth := 1 }) j).Length
        = (ndAt ns j).Length := by
      intro j hj
      rw [ndAt_set_ne _ ns i j (by omega)]
    have hseq := childSeq_congr_lt i hi1
      (fun j hj => hcore0 j hj) (ndAt ns i).Arity ((i : ℤ) - 1) (by omega)
    have hrec := updChildLoop_core i (ndAt ns i).Arity
      (ns.set i { ndAt ns i with Length := (ndAt ns i).Arity, Depth := 1 })
      ((i : ℤ) - 1) (ndAt ns i).Arity 1
      (by omega) le_rfl
      (by rw [hseq.2]; omega)
    have hr21 : (updChildLoop (ns.set i { ndAt ns i with
          Length := (ndAt ns i).Arity, Depth := 1 }) i (ndAt ns i).Arity 1
          ((i : ℤ) - 1)).2.1
        = (ndAt ns i).Length := by
      rw [hrec.2, hseq.2]
      omega
    have hcAt : ndCore (ndAt (updChildLoop (ns.set i { ndAt ns i with
          Length := (ndAt ns i).Arity, Depth := 1 }) i (ndAt ns i).Arity 1
          ((i : ℤ) - 1)).1 i)
        = ndCore { ndAt ns i with Length := (ndAt ns i).Arity, Depth := 1 } := by
      rw [ndAt_core hrec.1 i,
        ndAt_set_self _ ns i hi]
    rw [List.map_set, hrec.1, List.map_set, List.set_set]
    have hy : ndCore { ndAt (updChildLoop (ns.set i { ndAt ns i with
          Length := (ndAt ns i).Arity, Depth := 1 }) i (ndAt ns i).Arity 1
          ((i : ℤ) - 1)).1 i with
          Length := (updChildLoop (ns.set i { ndAt ns i with
            Length := (ndAt ns i).Arity, Depth := 1 }) i (ndAt ns i).Arity 1
            ((i : ℤ) - 1)).2.1,
          Depth := (updChildLoop (ns.set i { ndAt ns i with
            Length := (ndAt ns i).Arity, Depth := 1 }) i (ndAt ns i).Arity 1
            ((i : ℤ) - 1)).2.2 + 1 }
        = ndCore (ndAt ns i) := by
      rw [ndCore_setLenDepth, hcAt, hr21]
      simp [ndCore]
    rw [hy]
    have hfin := map_set_core ns i (ndAt ns i) rfl
    rw [List.map_set] at hfin
    exact hfin

end Tree

theorem foldl_updateAt_core (ns : List Nd)
    (hall : ∀ i < ns.length, SubtreeInvAt ns i) :
    ∀ (L : List ℕ) (ns' : List Nd), (∀ j ∈ L, j < ns.length) →
      ns'.map ndCore = ns.map ndCore →
      (L.foldl Tree.updateAt ns').map ndCore = ns.map ndCore := by
  intro L
  induction L with
  | nil => intro ns' _ hc; exact hc
  | cons a L ih =>
    intro ns' hmem hc
    have ha : a < ns.length := hmem a (by simp)
    have hinv : SubtreeInvAt ns' a := (subtreeInv_core hc a).mpr (hall a ha)
    have hlen : ns'.length = ns.length := core_length_eq hc
    simp only [List.foldl_cons]
    exact ih (Tree.updateAt ns' a) (fun j hj => hmem j (by simp [hj]))
      ((Tree.updateAt_core ns' a (by omega) hinv).trans hc)

/-- `Tree::UpdateNodes` only rewrites the `Depth` and `Parent` fields when
every position already satisfies the subtree-range invariant. -/
theorem UpdateNodes_core (ns : List Nd)
    (hall : ∀ i < ns.length, SubtreeInvAt ns i) :
    (Tree.UpdateNodes ns).map ndCore = ns.map ndCore := by
  unfold Tree.UpdateNodes
  exact foldl_updateAt_core ns hall (List.range ns.length) ns
    (fun j hj => List.mem_range.mp hj) rfl

mutual

/-- Inside any context, every position of a well-formed subtree's block
satisfies the subtree-range invariant. -/
theorem allInvT : ∀ (t : RTree) (A B : List Nd), t.wfB = true →
    ∀ i, A.length ≤ i → i < A.length + t.flat.length →
      SubtreeInvAt (A ++ t.flat ++ B) i
  | .node nd cs, A, B, hwf, i, hge, hlt => by
    have hwl : wfList cs = true :=
      (wfList_iff cs).mpr ((wfB_iff nd cs).mp hwf).2.2.2
    have hflat : (RTree.node nd cs).flat = flatForest cs ++ [nd] :=
      RTree.flat_def nd cs
    by_cases hroot : i = A.length + (flatForest cs).length
    · subst hroot
      exact subtreeInv_at_root A B nd cs hwf
    · have hlt2 : i < A.length + (flatForest cs).length := by
        rw [hflat] at hlt
        simp only [List.length_append, List.length_singleton] at hlt
        omega
      have hassoc : A ++ (RTree.node nd cs).flat ++ B
          = A ++ flatForest cs ++ ([nd] ++ B) := by
        rw [hflat]
        simp [List.append_assoc]
      rw [hassoc]
      exact allInvF cs A ([nd] ++ B) hwl i hge hlt2

/-- Inside any context, every position of a well-formed forest's block
satisfies the subtree-range invariant. -/
theorem allInvF : ∀ (cs : List RTree) (A B : List Nd), wfList cs = true →
    ∀ i, A.length ≤ i → i < A.length + (flatForest cs).length →
      SubtreeInvAt (A ++ flatForest cs ++ B) i
  | [], A, B, _, i, hge, hlt => by
    exact absurd hlt (by rw [flatForest_nil]; simp; omega)
  | d :: ds, A, B, hwl, i, hge, hlt => by
    rw [wfList, Bool.and_eq_true] at hwl
    have hFd : flatForest (d :: ds) = flatForest ds ++ d.flat :=
      flatForest_cons d ds
    by_cases hin : i < A.length + (flatForest ds).length
    · have hassoc : A ++ flatForest (d :: ds) ++ B
          = A ++ flatForest ds ++ (d.flat ++ B) := by
        rw [hFd]
        simp [List.append_assoc]
      rw [hassoc]
      exact allInvF ds A (d.flat ++ B) hwl.2 i hge hin
    · have hassoc : A ++ flatForest (d :: ds) ++ B
          = (A ++ flatForest ds) ++ d.flat ++ B := by
        rw [hFd]
        simp [List.append_assoc]
      rw [hassoc]
      refine allInvT d (A ++ flatForest ds) B hwl.1 i ?_ ?_
      · rw [List.length_append]
        omega
      · rw [hFd] at hlt
        simp only [List.length_append] at hlt ⊢
        omega

end

/-- Every position of a well-formed tree's flat layout satisfies the
subtree-range invariant. -/
theorem allInv_flat (t : RTree) (hwf : t.wfB = true) :
    ∀ i < t.flat.length, SubtreeInvAt t.flat i := by
  intro i hi
  have h := allInvT t [] [] hwf i (by simp) (by simpa using hi)
  simpa using h

theorem flatForest_map_perm (f : Nd → ℕ) {X Y : List RTree} (h : X.Perm Y) :
    ((flatForest X).map f).Perm ((flatForest Y).map f) := by
  unfold flatForest
  rw [flatList_eq_map, flatList_eq_map, List.map_flatten, List.map_flatten]
  refine List.Perm.flatten ?_
  exact ((List.reverse_perm _).map _).trans
    (((h.map _).map _).trans (((List.reverse_perm _).map _).symm))

mutual

/-- The multiset of structural hashes assigned by the recursive hash model in
Relaxed mode is invariant under canonicalization. -/
theorem chvPermT (h : List ℕ → ℕ) (h2 : ℕ → ℚ → ℕ) (hx : List ℕ → ℕ)
    (h2x : ℕ → ℚ → ℕ) (strict : Bool) :
    ∀ t : RTree, t.wfB = true →
      ((RTree.hmap h h2 .Relaxed (RTree.smap hx h2x strict t)).flat.map
          (fun n => n.CalculatedHashValue)).Perm
        ((RTree.hmap h h2 .Relaxed t).flat.map (fun n => n.CalculatedHashValue))
  | .node nd cs, hwf => by
    have hwl : wfList cs = true :=
      (wfList_iff cs).mpr ((wfB_iff nd cs).mp hwf).2.2.2
    obtain ⟨chv, cs2, heq, hperm, -⟩ :=
      smap_children_perm hx h2x strict nd cs hwf
    have hroot : RTree.rhash h h2 .Relaxed
          (.node { nd with CalculatedHashValue := chv } cs2)
        = RTree.rhash h h2 .Relaxed (.node nd cs) := by
      rw [← heq]
      exact rhash_smap h h2 hx h2x strict _ hwf
    rw [heq, RTree.hmap, RTree.hmap, RTree.flat_def, RTree.flat_def,
      List.map_append, List.map_append]
    refine List.Perm.append ?_ ?_
    · have hp1 : (hmapList h h2 .Relaxed cs2).Perm
          (hmapList h h2 .Relaxed (smapList hx h2x strict cs)) := by
        rw [hmapList_eq_map, hmapList_eq_map]
        exact hperm.map _
      exact (flatForest_map_perm _ hp1).trans (chvPermF h h2 hx h2x strict cs hwl)
    · show List.Perm
        [RTree.rhash h h2 .Relaxed (.node { nd with CalculatedHashValue := chv } cs2)]
        [RTree.rhash h h2 .Relaxed (.node nd cs)]
      rw [hroot]

/-- The forest version of the Relaxed-hash multiset invariance. -/
theorem chvPermF (h : List ℕ → ℕ) (h2 : ℕ → ℚ → ℕ) (hx : List ℕ → ℕ)
    (h2x : ℕ → ℚ → ℕ) (strict : Bool) :
    ∀ cs : List RTree, wfList cs = true →
      ((flatForest (hmapList h h2 .Relaxed (smapList hx h2x strict cs))).map
          (fun n => n.CalculatedHashValue)).Perm
        ((flatForest (hmapList h h2 .Relaxed cs)).map
          (fun n => n.CalculatedHashValue))
  | [], _ => List.Perm.refl _
  | d :: ds, hwl => by
    rw [wfList, Bool.and_eq_true] at hwl
    rw [smapList, hmapList, hmapList, flatForest_cons, flatForest_cons,
      List.map_append, List.map_append]
    exact List.Perm.append (chvPermF h h2 hx h2x strict ds hwl.2)
      (chvPermT h h2 hx h2x strict d hwl.1)

end

theorem hashPass_eq_foldIdx (h : List ℕ → ℕ) (h2 : ℕ → ℚ → ℕ) (mode : HashMode)
    (ns : List Nd) :
    hashPass h h2 mode ns = foldIdx (hashAt h h2 mode) ns 0 ns.length := by
  unfold hashPass foldIdx
  rw [List.range_eq_range']

theorem sortCore_eq_foldIdx (hx : List ℕ → ℕ) (h2x : ℕ → ℚ → ℕ) (strict : Bool)
    (ns : List Nd) :
    sortCore hx h2x strict ns = foldIdx (sortAt hx h2x strict) ns 0 ns.length := by
  unfold sortCore foldIdx
  rw [List.range_eq_range']

/-- `Tree::Hash` on a well-formed flat layout computes the recursive hash
model. -/
theorem hashPass_flat (h : List ℕ → ℕ) (h2 : ℕ → ℚ → ℕ) (mode : HashMode)
    (t : RTree) (hwf : t.wfB = true) :
    hashPass h h2 mode t.flat = (RTree.hmap h h2 mode t).flat := by
  have hs := hashSimT h h2 mode t [] [] hwf
  rw [hashPass_eq_foldIdx]
  simpa using hs

/-- The canonicalization loop of `Tree::Sort` on a well-formed flat layout
computes the recursive canonicalization model. -/
theorem sortCore_flat (hx : List ℕ → ℕ) (h2x : ℕ → ℚ → ℕ) (strict : Bool)
    (t : RTree) (hwf : t.wfB = true) :
    sortCore hx h2x strict t.flat = (RTree.smap hx h2x strict t).flat := by
  have hs := sortSimT hx h2x strict t [] [] hwf
  rw [sortCore_eq_foldIdx]
  simpa using hs

theorem HashValueT_flat (t : RTree) :
    HashValueT t.flat = t.root.CalculatedHashValue := by
  have hpos := flat_length_pos t
  unfold HashValueT
  rw [if_neg (by
      intro hemp
      rw [List.isEmpty_iff] at hemp
      rw [hemp] at hpos
      simp at hpos),
    flat_last]

/-- A sample tree: a commutative operator over two variable leaves, with the
derived fields satisfying the subtree-range invariant. -/
def sampleSortTree : RTree :=
  .node
    { Arity := 2, Length := 2, Depth := 2, Parent := 0, IsEnabled := true,
      HashValue := 5, CalculatedHashValue := 0, Value := 0,
      IsCommutative := true, IsConstant := false, IsVariable := false }
    [ .node
        { Arity := 0, Length := 0, Depth := 1, Parent := 2, IsEnabled := true,
          HashValue := 9, CalculatedHashValue := 0, Value := 0,
          IsCommutative := false, IsConstant := false, IsVariable := true } [],
      .node
        { Arity := 0, Length := 0, Depth := 1, Parent := 2, IsEnabled := true,
          HashValue := 7, CalculatedHashValue := 0, Value := 0,
          IsCommutative := false, IsConstant := false, IsVariable := true } [] ]

/-- C9: for every tree whose derived fields satisfy the subtree-range
invariant (a well-formed flat layout of a recursive tree), the Relaxed-mode
structural hash of the root computed by `Tree::Hash` after `Tree::Sort` —
whatever sorting mode, and whatever hash functions realize `xxhash` — equals
the Relaxed-mode hash computed before `Sort()`, and the multiset of all
per-node hashes is likewise preserved (every node's hash is matched across
the reordering). -/
theorem hash_relaxed_invariant_under_sort
    (h : List ℕ → ℕ) (h2 : ℕ → ℚ → ℕ) (hx : List ℕ → ℕ) (h2x : ℕ → ℚ → ℕ)
    (strict : Bool) (t : RTree) (hwf : t.wfB = true) :
    HashValueT (hashPass h h2 .Relaxed (SortT hx h2x strict t.flat))
      = HashValueT (hashPass h h2 .Relaxed t.flat) ∧
    ((hashPass h h2 .Relaxed (SortT hx h2x strict t.flat)).map
        (fun n => n.CalculatedHashValue)).Perm
      ((hashPass h h2 .Relaxed t.flat).map (fun n => n.CalculatedHashValue)) := by
  have hsmwf : (RTree.smap hx h2x strict t).wfB = true :=
    wfB_smap hx h2x strict t hwf
  have hsort : SortT hx h2x strict t.flat
      = Tree.UpdateNodes ((RTree.smap hx h2x strict t).flat) := by
    unfold SortT
    rw [sortCore_flat hx h2x strict t hwf]
  have hupd : (Tree.UpdateNodes ((RTree.smap hx h2x strict t).flat)).map ndCore
      = ((RTree.smap hx h2x strict t).flat).map ndCore :=
    UpdateNodes_core _ (allInv_flat _ hsmwf)
  have hcore : (hashPass h h2 .Relaxed (SortT hx h2x strict t.flat)).map ndCore
      = (hashPass h h2 .Relaxed ((RTree.smap hx h2x strict t).flat)).map ndCore := by
    rw [hsort]
    exact hashPass_core h h2 .Relaxed hupd
  have hHsm := hashPass_flat h h2 .Relaxed (RTree.smap hx h2x strict t) hsmwf
  have hHt := hashPass_flat h h2 .Relaxed t hwf
  constructor
  · rw [HashValueT_of_core hcore, hHsm, hHt, HashValueT_flat, HashValueT_flat,
      hmap_root, hmap_root]
    show RTree.rhash h h2 .Relaxed (RTree.smap hx h2x strict t)
      = RTree.rhash h h2 .Relaxed t
    exact rhash_smap h h2 hx h2x strict t hwf
  · rw [chvMap_of_core hcore, hHsm, hHt]
    exact chvPermT h h2 hx h2x strict t hwf

/-- The invariance theorem applied to the sample tree, with list-sum and
list-length standing in for the two hashers. -/
theorem hash_relaxed_invariant_under_sort_witness :
    sampleSortTree.wfB = true ∧
    (HashValueT (hashPass (fun l => l.sum) (fun a _ => a) .Relaxed
        (SortT (fun l => l.length) (fun a _ => a) false sampleSortTree.flat))
      = HashValueT (hashPass (fun l => l.sum) (fun a _ => a) .Relaxed
        sampleSortTree.flat) ∧
    ((hashPass (fun l => l.sum) (fun a _ => a) .Relaxed
        (SortT (fun l => l.length) (fun a _ => a) false
          sampleSortTree.flat)).map (fun n => n.CalculatedHashValue)).Perm
      ((hashPass (fun l => l.sum) (fun a _ => a) .Relaxed
        sampleSortTree.flat).map (fun n => n.CalculatedHashValue))) :=
  ⟨by decide,
    hash_relaxed_invariant_under_sort (fun l => l.sum) (fun a _ => a)
      (fun l => l.length) (fun a _ => a) false sampleSortTree (by decide)⟩

end Operon
